import Mathlib

/-!
Shallow embedding of `src/PA 4/red_black_tree.h` (class `RedBlackTree<Comparable>`,
instantiated at integer values).

Representation choices:
* A tree node is `Tree.node id value color left right`.  The `id` field models
  pointer identity (the C++ allocation order assigns ids `0,1,2,...`); `nil`
  models a null child pointer.
* The C++ mutates nodes in place and navigates through `parent` pointers.  We
  embed this with explicit state passing: a focus subtree together with a
  context (`List Frame`), where each `Frame` records the parent node's data and
  the sibling subtree.  `plug` rebuilds the whole tree from focus and context,
  which corresponds to following the parent chain to `_root`.
* Undefined behaviour (dereferencing a null pointer) is modelled by returning
  `none`.  The recursions of `insert` and `remove` are not structural, so they
  take a fuel argument; exhausted fuel also returns `none`.
-/

namespace RBT

/-- `enum Color { RED = 0, BLACK = 1 }` (red_black_tree.h line 26). -/
inductive Color where
  | red
  | black
deriving DecidableEq, Repr

/-- The node graph: `nil` is a null `Node*`; `node i v c l r` is a `Node`
with allocation identity `i`, `value v`, `color c` and children `l`, `r`
(red_black_tree.h lines 31-126; the `parent` field is represented by the
context in which a subtree occurs). -/
inductive Tree where
  | nil
  | node (id : Nat) (value : Int) (color : Color) (left right : Tree)
deriving DecidableEq, Repr

namespace Tree

/-- `node ? node->color : BLACK`, as in the public `color` accessor
(line 540); also used to read `x->color` under a non-null guard. -/
def colOf : Tree → Color
  | nil => Color.black
  | node _ _ c _ _ => c

/-- Left child pointer of a node (`nil` input models reading through a null
pointer, which never happens under the guards we translate). -/
def leftOf : Tree → Tree
  | nil => nil
  | node _ _ _ l _ => l

/-- Right child pointer of a node. -/
def rightOf : Tree → Tree
  | nil => nil
  | node _ _ _ _ r => r

/-- `value` field of a node (junk value 0 on `nil`, never used unguarded). -/
def valOf : Tree → Int
  | nil => 0
  | node _ v _ _ _ => v

/-- `id` of a node (junk 0 on `nil`). -/
def idOf : Tree → Nat
  | nil => 0
  | node i _ _ _ _ => i

/-- `node->color = c` on a non-null node. -/
def setColor : Tree → Color → Tree
  | nil, _ => nil
  | node i v _ l r, c => node i v c l r

/-- `bool isLeaf() const { return !this->left && !this->right; }` (line 110). -/
def isLeaf : Tree → Bool
  | nil => false
  | node _ _ _ l r => decide (l = nil) && decide (r = nil)

/-- `hasColorChild` (line 112):
`(left && left->color == color) || (right && right->color == color)`. -/
def hasColorChild (t : Tree) (c : Color) : Bool :=
  (decide (t.leftOf ≠ nil) && decide ((t.leftOf).colOf = c)) ||
    (decide (t.rightOf ≠ nil) && decide ((t.rightOf).colOf = c))

/-- `hasColorChildren` (line 114):
`(isLeaf() && color == BLACK) || (left && left->color == color && right && right->color == color)`. -/
def hasColorChildren (t : Tree) (c : Color) : Bool :=
  (t.isLeaf && decide (c = Color.black)) ||
    (decide (t.leftOf ≠ nil) && decide ((t.leftOf).colOf = c) &&
      (decide (t.rightOf ≠ nil) && decide ((t.rightOf).colOf = c)))

/-- In-order list of stored values. -/
def inorder : Tree → List Int
  | nil => []
  | node _ v _ l r => inorder l ++ v :: inorder r

/-- Multiset of stored values. -/
def vals : Tree → Multiset Int
  | nil => 0
  | node _ v _ l r => v ::ₘ (vals l + vals r)

/-- Number of nodes. -/
def size : Tree → Nat
  | nil => 0
  | node _ _ _ l r => size l + size r + 1

/-- Multiset of node identities (models the set of allocated `Node*`). -/
def ids : Tree → Multiset Nat
  | nil => 0
  | node i _ _ l r => i ::ₘ (ids l + ids r)

end Tree

open Tree

/-- `search` (lines 186-192), specialised to return whether the node was
found (the public `contains`, line 504, converts the pointer to `bool`). -/
def search (t : Tree) (value : Int) : Bool :=
  match t with
  | nil => false
  | node _ v _ l r =>
    if v = value then true
    else if v < value then search r value else search l value

/-- Private `find_min` (lines 238-243): walk `left` pointers while non-null. -/
def findMinNode : Tree → Tree
  | nil => nil
  | node i v c nil r => node i v c nil r
  | node _ _ _ (node j w cc a b) _ => findMinNode (node j w cc a b)

/-- Public `find_min` (lines 511-516): throws `invalid_argument` on an empty
tree, otherwise the value of the all-left descent. -/
def findMinPub (t : Tree) : Except String Int :=
  match t with
  | nil => Except.error "Red Black Tree is empty"
  | node i v c l r => Except.ok ((findMinNode (node i v c l r)).valOf)

/-- The all-right descent loop of public `find_max` (lines 527-529). -/
def findMaxNode : Tree → Tree
  | nil => nil
  | node i v c l nil => node i v c l nil
  | node _ _ _ _ (node j w cc a b) => findMaxNode (node j w cc a b)

/-- Public `find_max` (lines 523-532). -/
def findMaxPub (t : Tree) : Except String Int :=
  match t with
  | nil => Except.error "Red Black Tree is empty"
  | node i v c l r => Except.ok ((findMaxNode (node i v c l r)).valOf)

/-- `is_empty` (line 579). -/
def isEmptyPub (t : Tree) : Bool := decide (t = Tree.nil)

/-- `make_empty` (lines 200-210, 584): deallocates everything. -/
def makeEmptyPub (_t : Tree) : Tree := Tree.nil

/-- `doubleRed` (lines 423-429). -/
def doubleRed : Tree → Bool
  | nil => false
  | node _ _ c l r =>
    if c = Color.red && (Tree.node 0 0 c l r).hasColorChild Color.red then true
    else doubleRed l || doubleRed r

/-- `blackHeight` (lines 431-436): counts black nodes along the LEFTMOST
path only (`height = blackHeight(root->left)`). -/
def blackHeight : Tree → Nat
  | nil => 1
  | node _ _ c l _ => blackHeight l + (if c = Color.black then 1 else 0)

/-- Private `followsRules` (lines 416-421): no double red anywhere, and the
`blackHeight` of the root's two children agree. -/
def followsRulesNode (t : Tree) : Bool :=
  !doubleRed t && decide (blackHeight t.leftOf = blackHeight t.rightOf)

/-- Public `followsRules` (lines 549-553). -/
def followsRulesPub (t : Tree) : Bool :=
  match t with
  | nil => true
  | node i v c l r => followsRulesNode (node i v c l r)

/-- Local effect of `rotateLeft` (lines 138-154): the right child `temp`
takes `node`'s place, `temp->left` moves across.  Returns `none` when
`node->right` is null (`temp->left` would dereference null).  The
parent/root relinking of lines 144-150 is realised by plugging the result
back into the context at the call site. -/
def rotateLeft : Tree → Option Tree
  | Tree.node i v c l (Tree.node j w cc a b) => some (Tree.node j w cc (Tree.node i v c l a) b)
  | _ => none

/-- Local effect of `rotateRight` (lines 161-177). -/
def rotateRight : Tree → Option Tree
  | Tree.node i v c (Tree.node j w cc a b) r => some (Tree.node j w cc a (Tree.node i v c b r))
  | _ => none

/-- Which side of its parent the focussed subtree hangs on. -/
inductive Dir where
  | left
  | right
deriving DecidableEq, Repr

/-- One step of the parent chain: the parent node's identity, value and
color, the sibling subtree, and on which side the focus hangs. -/
structure Frame where
  dir : Dir
  id : Nat
  value : Int
  color : Color
  sib : Tree
deriving DecidableEq, Repr

/-- Rebuild the parent node from a frame and the focussed child. -/
def Frame.fill (f : Frame) (t : Tree) : Tree :=
  match f.dir with
  | Dir.left => Tree.node f.id f.value f.color t f.sib
  | Dir.right => Tree.node f.id f.value f.color f.sib t

/-- Rebuild the whole tree (follow the parent chain up to `_root`). -/
def plug (t : Tree) : List Frame → Tree
  | [] => t
  | f :: ctx => plug (f.fill t) ctx

/-- `node->sibling()` (lines 121-125): null when there is no parent,
otherwise the parent's other child pointer. -/
def siblingT : List Frame → Tree
  | [] => Tree.nil
  | f :: _ => f.sib

mutual

/-- Private `insert(Node* node, const Comparable& value)` (lines 315-399),
head part (lines 315-358): empty-tree creation, equality stop, leaf
attachment with the local no-sibling fixup.  The focus is `t`, the parent
chain is `ctx`.  Rotations at the parent are realised by consuming a frame
and rebuilding the rotated configuration exactly as the pointer surgery of
`rotateLeft` / `rotateRight` produces it. -/
def insertGo : Nat → List Frame → Tree → Int → Nat → Option (Tree × Nat)
  | 0, _, _, _, _ => none
  | Nat.succ fuel, ctx, t, value, nid =>
    match t with
    | Tree.nil =>
      match ctx with
      | [] =>
        -- line 316-318: `if (!this->_root) { this->_root = new Node(value, BLACK); return; }`
        -- (`_root` is null exactly when the focus is null with no parent chain)
        some (Tree.node nid value Color.black Tree.nil Tree.nil, nid + 1)
      | _ :: _ =>
        -- a recursive call on a null child with a non-empty tree would
        -- dereference `node->value` (line 319): undefined behaviour
        none
    | Tree.node i v c l r =>
      if v = value then
        -- lines 319-320: value already present, plain return
        some (plug (Tree.node i v c l r) ctx, nid)
      else if v > value then
        match l with
        | Tree.nil =>
          -- lines 322-324: attach `new Node(value)` as red left leaf
          let leaf := Tree.node nid value Color.red Tree.nil Tree.nil
          let t1 := Tree.node i v c leaf r
          if c = Color.black then some (plug t1 ctx, nid + 1)
          else if siblingT ctx = Tree.nil then
            match ctx with
            | f :: rest =>
              match f.dir with
              | Dir.left =>
                -- line 330: `node = rotateRight(node->parent)`, then 335-336 recolor
                some (plug (Tree.node i v Color.black (leaf.setColor Color.red)
                  (Tree.node f.id f.value Color.red r f.sib)) rest, nid + 1)
              | Dir.right =>
                -- lines 332-333: `node = rotateRight(node); node = rotateLeft(node->parent)`,
                -- then 335-336 recolor
                some (plug (Tree.node nid value Color.black
                  (Tree.node f.id f.value Color.red f.sib Tree.nil)
                  (Tree.node i v Color.red Tree.nil r)) rest, nid + 1)
            | [] =>
              -- red root without parent: line 333 `rotateLeft(node->parent)`
              -- dereferences the null parent
              none
          else insertFix fuel ctx t1 value (nid + 1)
        | Tree.node _ _ _ _ _ => insertFix fuel ctx (Tree.node i v c l r) value nid
      else
        match r with
        | Tree.nil =>
          -- lines 341-343: attach red right leaf
          let leaf := Tree.node nid value Color.red Tree.nil Tree.nil
          let t1 := Tree.node i v c l leaf
          if c = Color.black then some (plug t1 ctx, nid + 1)
          else if siblingT ctx = Tree.nil then
            match ctx with
            | f :: rest =>
              match f.dir with
              | Dir.right =>
                -- line 348: `node = rotateLeft(node->parent)`, then 353-354 recolor
                some (plug (Tree.node i v Color.black
                  (Tree.node f.id f.value Color.red f.sib l)
                  (leaf.setColor Color.red)) rest, nid + 1)
              | Dir.left =>
                -- lines 350-351: `node = rotateLeft(node); node = rotateRight(node->parent)`
                some (plug (Tree.node nid value Color.black
                  (Tree.node i v Color.red l Tree.nil)
                  (Tree.node f.id f.value Color.red Tree.nil f.sib)) rest, nid + 1)
            | [] => none
          else insertFix fuel ctx t1 value (nid + 1)
        | Tree.node _ _ _ _ _ => insertFix fuel ctx (Tree.node i v c l r) value nid

/-- Lines 360-396 of the private `insert`: the red 4-node split and the four
red-red rotation cases (each of which restarts the recursion at the child
the source selects). -/
def insertFix : Nat → List Frame → Tree → Int → Nat → Option (Tree × Nat)
  | 0, _, _, _, _ => none
  | Nat.succ fuel, ctx, t, value, nid =>
    match t with
    | Tree.nil => none
    | Tree.node i v c l r =>
      if (Tree.node i v c l r).hasColorChildren Color.red then
        -- lines 361-362: `node->color = RED; node->right->color = node->left->color = BLACK`
        let t2 := Tree.node i v Color.red (l.setColor Color.black) (r.setColor Color.black)
        match ctx with
        | f :: rest =>
          if f.color = Color.red then
            match rest with
            | g :: rest2 =>
              match f.dir, g.dir with
              | Dir.left, Dir.left =>
                -- lines 365-370: `node = rotateRight(node->parent->parent)`,
                -- recolor, `insert(node->left, value)`
                insertGo fuel
                  (Frame.mk Dir.left f.id f.value Color.black
                    (Tree.node g.id g.value Color.red f.sib g.sib) :: rest2)
                  (t2.setColor Color.red) value nid
              | Dir.right, Dir.right =>
                -- lines 372-377: `node = rotateLeft(node->parent->parent)`,
                -- recolor, `insert(node->left, value)`
                insertGo fuel
                  (Frame.mk Dir.left f.id f.value Color.black
                    (t2.setColor Color.red) :: rest2)
                  (Tree.node g.id g.value Color.red g.sib f.sib) value nid
              | Dir.right, Dir.left =>
                -- lines 379-385: `node = rotateLeft(node->parent);
                -- node = rotateRight(node->parent)`, recolor, `insert(node->left, value)`
                match t2 with
                | Tree.node i2 v2 _ bl br =>
                  insertGo fuel
                    (Frame.mk Dir.left i2 v2 Color.black
                      (Tree.node g.id g.value Color.red br g.sib) :: rest2)
                    (Tree.node f.id f.value Color.red f.sib bl) value nid
                | Tree.nil => none
              | Dir.left, Dir.right =>
                -- lines 387-393: `node = rotateRight(node->parent);
                -- node = rotateLeft(node->parent)`, recolor, `insert(node->right, value)`
                match t2 with
                | Tree.node i2 v2 _ bl br =>
                  insertGo fuel
                    (Frame.mk Dir.right i2 v2 Color.black
                      (Tree.node g.id g.value Color.red g.sib bl) :: rest2)
                    (Tree.node f.id f.value Color.red br f.sib) value nid
                | Tree.nil => none
            | [] =>
              -- parent is red but has no parent itself: none of the four
              -- guards of lines 365-387 hold, fall through to line 398
              insertStep fuel ctx t2 value nid
          else insertStep fuel ctx t2 value nid
        | [] => insertStep fuel ctx t2 value nid
      else insertStep fuel ctx (Tree.node i v c l r) value nid

/-- Line 398: `this->insert(node->value > value ? node->left : node->right, value)`. -/
def insertStep : Nat → List Frame → Tree → Int → Nat → Option (Tree × Nat)
  | 0, _, _, _, _ => none
  | Nat.succ fuel, ctx, t, value, nid =>
    match t with
    | Tree.nil => none
    | Tree.node i v c l r =>
      if v > value then insertGo fuel (Frame.mk Dir.left i v c r :: ctx) l value nid
      else insertGo fuel (Frame.mk Dir.right i v c l :: ctx) r value nid

end

/-- Public `insert` (lines 475-478): run the private insert from the root,
then `this->_root->color = BLACK` (dereferencing the root). -/
def insertPub (fuel : Nat) (t : Tree) (value : Int) (nid : Nat) : Option (Tree × Nat) :=
  (insertGo fuel [] t value nid).bind fun p =>
    match p.1 with
    | Tree.nil => none
    | Tree.node i v _ l r => some (Tree.node i v Color.black l r, p.2)

/-- Value at the all-left descent of a subtree (the in-order successor used
by `removeNode`, line 256). -/
def leftmostVal : Tree → Int
  | Tree.nil => 0
  | Tree.node _ v _ Tree.nil _ => v
  | Tree.node _ _ _ (Tree.node j w cc a b) _ => leftmostVal (Tree.node j w cc a b)

/-- Overwrite the value at the all-left descent (the `replace->value` half of
the swap on line 257). -/
def setLeftmostVal : Tree → Int → Tree
  | Tree.nil, _ => Tree.nil
  | Tree.node i _ c Tree.nil r, w => Tree.node i w c Tree.nil r
  | Tree.node i v c (Tree.node j u cc a b) r, w =>
    Tree.node i v c (setLeftmostVal (Tree.node j u cc a b) w) r

/-- Build the context for the all-left descent: the zipper at the node
`find_min` (lines 238-243) returns. -/
def zipToLeftmost : List Frame → Tree → List Frame × Tree
  | ctx, Tree.node i v c (Tree.node j w cc a b) r =>
    zipToLeftmost (Frame.mk Dir.left i v c r :: ctx) (Tree.node j w cc a b)
  | ctx, t => (ctx, t)

/-- Locate a node by its allocation identity and return the zipper at it.
This models continuing to work through a `Node*` after recursive calls have
restructured the tree around it (the fall-through from line 294 to line 309). -/
def zipToId : List Frame → Tree → Nat → Option (List Frame × Tree)
  | _, Tree.nil, _ => none
  | ctx, Tree.node i v c l r, target =>
    if i = target then some (ctx, Tree.node i v c l r)
    else
      match zipToId (Frame.mk Dir.left i v c r :: ctx) l target with
      | some res => some res
      | none => zipToId (Frame.mk Dir.right i v c l :: ctx) r target

mutual

/-- Private `remove(Node* node, const Comparable& value)` (lines 261-313).
The focus is `t` with parent chain `ctx`.  Each rotation at the parent
consumes a frame and rebuilds the configuration produced by the pointer
surgery; `none` models a null-pointer dereference or exhausted fuel. -/
def removeGo : Nat → List Frame → Tree → Int → Option Tree
  | 0, _, _, _ => none
  | Nat.succ fuel, ctx, t, value =>
    match t with
    | Tree.nil => some (plug Tree.nil ctx)
    | Tree.node i v c l r =>
      if (Tree.node i v c l r).hasColorChildren Color.black then
        if siblingT ctx = Tree.nil then
          -- lines 266-271: no sibling (root, or parent's other child null)
          if v = value then removeNodeGo fuel ctx (Tree.node i v c l r)
          else if v < value then
            removeGo fuel (Frame.mk Dir.right i v c l :: ctx) r value
          else removeGo fuel (Frame.mk Dir.left i v c r :: ctx) l value
        else
          match ctx with
          | [] => none -- unreachable: a non-null sibling forces a parent frame
          | f :: rest =>
            if f.sib.hasColorChildren Color.black then
              -- lines 272-279: recolor parent black, sibling and node red
              let f2 := Frame.mk f.dir f.id f.value Color.black (f.sib.setColor Color.red)
              if v = value then removeNodeGo fuel (f2 :: rest) (Tree.node i v Color.red l r)
              else if v < value then
                removeGo fuel (Frame.mk Dir.right i v Color.red l :: f2 :: rest) r value
              else removeGo fuel (Frame.mk Dir.left i v Color.red r :: f2 :: rest) l value
            else
              -- lines 282-294
              match f.dir, f.sib with
              | _, Tree.nil => none -- unreachable: sibling checked non-null
              | Dir.left, Tree.node j w cc a b =>
                -- closeNibling = sibling->right = b, distantNibling = a
                match b with
                | Tree.nil => none -- line 283: `closeNibling->sibling()` derefs null
                | Tree.node k x ck p q =>
                  if ck = Color.red then
                    -- lines 284-288: rotateLeft(sibling), rotateLeft(node->parent),
                    -- node red, parent black
                    removeStep fuel
                      (Frame.mk Dir.left f.id f.value Color.black (Tree.node j w cc a p) ::
                        Frame.mk Dir.left k x ck q :: rest)
                      (Tree.node i v Color.red l r) value
                  else if a = Tree.nil then none -- line 289 derefs null distantNibling
                  else if a.colOf = Color.red then
                    -- lines 289-292: rotateLeft(node->parent), node and sibling red,
                    -- parent and distant nibling black
                    removeStep fuel
                      (Frame.mk Dir.left f.id f.value Color.black (a.setColor Color.black) ::
                        Frame.mk Dir.left j w Color.red (Tree.node k x ck p q) :: rest)
                      (Tree.node i v Color.red l r) value
                  else
                    removeStep fuel (Frame.mk Dir.left f.id f.value f.color
                      (Tree.node j w cc a (Tree.node k x ck p q)) :: rest)
                      (Tree.node i v c l r) value
              | Dir.right, Tree.node j w cc a b =>
                -- closeNibling = sibling->left = a, distantNibling = b
                match a with
                | Tree.nil => none
                | Tree.node k x ck p q =>
                  if ck = Color.red then
                    -- rotateRight(sibling), rotateRight(node->parent)
                    removeStep fuel
                      (Frame.mk Dir.right f.id f.value Color.black (Tree.node j w cc q b) ::
                        Frame.mk Dir.right k x ck p :: rest)
                      (Tree.node i v Color.red l r) value
                  else if b = Tree.nil then none
                  else if b.colOf = Color.red then
                    removeStep fuel
                      (Frame.mk Dir.right f.id f.value Color.black (b.setColor Color.black) ::
                        Frame.mk Dir.right j w Color.red (Tree.node k x ck p q) :: rest)
                      (Tree.node i v Color.red l r) value
                  else
                    removeStep fuel (Frame.mk Dir.right f.id f.value f.color
                      (Tree.node j w cc (Tree.node k x ck p q) b) :: rest)
                      (Tree.node i v c l r) value
      else if (Tree.node i v c l r).hasColorChild Color.red then
        -- lines 295-307
        if c = Color.black then
          match ctx with
          | [] =>
            -- root: no rotation, recolor black, skip the parent recoloring
            removeFinish fuel [] (Tree.node i v Color.black l r) value
          | f :: rest =>
            match f.dir, f.sib with
            | _, Tree.nil => none -- rotation at the parent derefs the null sibling
            | Dir.right, Tree.node j w _ a b =>
              -- line 298: rotateRight(node->parent); then lines 301-305
              removeFinish fuel
                (Frame.mk Dir.right f.id f.value Color.red b ::
                  Frame.mk Dir.right j w Color.black a :: rest)
                (Tree.node i v Color.black l r) value
            | Dir.left, Tree.node j w _ a b =>
              -- line 300: rotateLeft(node->parent); then lines 301-305
              removeFinish fuel
                (Frame.mk Dir.left f.id f.value Color.red a ::
                  Frame.mk Dir.left j w Color.black b :: rest)
                (Tree.node i v Color.black l r) value
        else removeFinish fuel ctx (Tree.node i v c l r) value
      else removeFinish fuel ctx (Tree.node i v c l r) value

/-- Line 294 followed by the fall-through: recurse into the child selected
by comparison, then resume at the same node (located by its identity) and
run lines 309-312. -/
def removeStep : Nat → List Frame → Tree → Int → Option Tree
  | 0, _, _, _ => none
  | Nat.succ fuel, ctx, t, value =>
    match t with
    | Tree.nil => none
    | Tree.node i v c l r =>
      let inner :=
        if v < value then removeGo fuel (Frame.mk Dir.right i v c l :: ctx) r value
        else removeGo fuel (Frame.mk Dir.left i v c r :: ctx) l value
      inner.bind fun whole =>
        (zipToId [] whole i).bind fun z => removeFinish fuel z.1 z.2 value

/-- Lines 309-312: `if (node->value == value) removeNode(node); else
remove(node->value < value ? node->right : node->left, value)`. -/
def removeFinish : Nat → List Frame → Tree → Int → Option Tree
  | 0, _, _, _ => none
  | Nat.succ fuel, ctx, t, value =>
    match t with
    | Tree.nil => none
    | Tree.node i v c l r =>
      if v = value then removeNodeGo fuel ctx (Tree.node i v c l r)
      else if v < value then
        removeGo fuel (Frame.mk Dir.right i v c l :: ctx) r value
      else removeGo fuel (Frame.mk Dir.left i v c r :: ctx) l value

/-- `removeNode` (lines 245-259): detach a leaf from its parent, or swap
with `find_min(node->right)` (falling back to the left child) and recurse
the removal at the replacement position. -/
def removeNodeGo : Nat → List Frame → Tree → Option Tree
  | 0, _, _ => none
  | Nat.succ fuel, ctx, t =>
    match t with
    | Tree.nil => none
    | Tree.node i v c l r =>
      if (Tree.node i v c l r).isLeaf then
        match ctx with
        | f :: rest =>
          match f.dir with
          | Dir.left => some (plug (Tree.node f.id f.value f.color Tree.nil f.sib) rest)
          | Dir.right => some (plug (Tree.node f.id f.value f.color f.sib Tree.nil) rest)
        | [] =>
          -- a root leaf: `isLeft()` is false, so the else branch runs
          -- `node->parent->right = nullptr`, dereferencing the null parent
          none
      else
        match r with
        | Tree.node jr wr cr ar br =>
          let s := leftmostVal (Tree.node jr wr cr ar br)
          let r2 := setLeftmostVal (Tree.node jr wr cr ar br) v
          let z := zipToLeftmost (Frame.mk Dir.right i s c l :: ctx) r2
          removeGo fuel z.1 z.2 v
        | Tree.nil =>
          match l with
          | Tree.node jl wl cl al bl =>
            removeGo fuel (Frame.mk Dir.left i wl c Tree.nil :: ctx) (Tree.node jl v cl al bl) v
          | Tree.nil => none -- impossible: not a leaf

end

/-- Public `remove` (lines 485-495): return on an empty tree; repaint the
root red when both its children are black (or it is a leaf); run the
private remove; repaint a non-null root black. -/
def removePub (fuel : Nat) (t : Tree) (value : Int) : Option Tree :=
  match t with
  | Tree.nil => some Tree.nil
  | Tree.node i v c l r =>
    let t0 := if (Tree.node i v c l r).hasColorChildren Color.black then
        Tree.node i v Color.red l r
      else Tree.node i v c l r
    (removeGo fuel [] t0 value).map fun t1 =>
      match t1 with
      | Tree.nil => Tree.nil
      | Tree.node i2 v2 _ l2 r2 => Tree.node i2 v2 Color.black l2 r2

/-! ### Public operation driver -/

/-- A public mutating call on the tree handle. -/
inductive Op where
  | ins (v : Int)
  | rem (v : Int)
deriving DecidableEq, Repr

/-- Apply one public call (`insert`, lines 475-478, or `remove`, lines
485-495), threading the allocation counter.  Fuel 100 is far beyond the
recursion depth of any run considered here. -/
def applyOp (p : Tree × Nat) : Op → Option (Tree × Nat)
  | Op.ins v => insertPub 100 p.1 v p.2
  | Op.rem v => (removePub 100 p.1 v).map fun t => (t, p.2)

/-- Run a sequence of public calls on an initially empty tree (allocation
identities are handed out in order starting from 1, as the C++ heap does in
allocation order). -/
def runOps (ops : List Op) : Option (Tree × Nat) :=
  ops.foldlM applyOp (Tree.nil, 1)

/-- A sequence of plain inserts. -/
def insList (vs : List Int) : List Op := vs.map Op.ins

/-- The tree reached by a sequence of public calls. -/
def treeAfter (ops : List Op) : Option Tree := (runOps ops).map Prod.fst

/-- The in-order traversal after a sequence of public calls. -/
def inorderAfter (ops : List Op) : Option (List Int) :=
  (runOps ops).map fun p => p.1.inorder

/-- The node count after a sequence of public calls. -/
def sizeAfter (ops : List Op) : Option Nat := (runOps ops).map fun p => p.1.size

/-- The result of the public `contains` (line 504) after a sequence of
public calls. -/
def containsAfter (ops : List Op) (v : Int) : Option Bool :=
  (runOps ops).map fun p => search p.1 v

/-! ### Specification-side invariant definitions (from the spec's wording,
for comparison with the code's validator and behaviour) -/

/-- Spec wording: "no red node has a red child" (globally). -/
def specNoRedRed : Tree → Bool
  | Tree.nil => true
  | Tree.node _ _ c l r =>
    (!(decide (c = Color.red) &&
        (decide (l.colOf = Color.red) || decide (r.colOf = Color.red)))) &&
      specNoRedRed l && specNoRedRed r

/-- Spec wording: "every path from the root to an absent-child position
passes through the same number of black nodes"; returns that common count,
or `none` when two paths disagree anywhere in the tree. -/
def specBlackHeight : Tree → Option Nat
  | Tree.nil => some 0
  | Tree.node _ _ c l r =>
    match specBlackHeight l, specBlackHeight r with
    | some a, some b =>
      if a = b then some (a + (if c = Color.black then 1 else 0)) else none
    | _, _ => none

/-- Spec wording: in-order traversal strictly increasing (no duplicates). -/
def strictlyIncreasing : List Int → Bool
  | [] => true
  | [_] => true
  | a :: b :: rest => decide (a < b) && strictlyIncreasing (b :: rest)

/-! ### C1 -/

/-- C1: the claim asserts that after every public call the four red-black
invariants hold, in particular that the in-order traversal is strictly
increasing.  Evaluating the code: inserting 0,1,2,3,4,5,6,7 in ascending
order into an empty tree completes, but produces a tree whose in-order
traversal is [0,1,2,7,3,4,5,6] — 7 is attached inside the left subtree by
the red-red fixup (line 376 restarts the recursion at `node->left` even
when the value belongs to the right), so invariant 4 fails after the
eighth insert. -/
theorem insert_seq_breaks_inorder :
    inorderAfter (insList [0, 1, 2, 3, 4, 5, 6, 7]) = some [0, 1, 2, 7, 3, 4, 5, 6] ∧
      strictlyIncreasing [0, 1, 2, 7, 3, 4, 5, 6] = false := by
  decide

/-! ### C2 -/

/-- C2: the claim says `remove` of the sole remaining value of a one-node
tree completes normally.  In the code, `removeNode` (lines 246-250) tests
`isLeft()` — which is `false` for the parentless root — and runs
`node->parent->right = nullptr`, dereferencing the null parent: the run
insert(0); remove(0) hits undefined behaviour (modelled as `none`). -/
theorem remove_sole_value_crashes :
    treeAfter [Op.ins 0] = some (Tree.node 1 0 Color.black Tree.nil Tree.nil) ∧
      removePub 100 (Tree.node 1 0 Color.black Tree.nil Tree.nil) 0 = none ∧
      runOps [Op.ins 0, Op.rem 0] = none := by
  decide

/-! ### C3 -/

/-- C3: the claim says inserting a set S and then removing every element of
S yields an empty tree.  For S = {0,1}, removing the last remaining
element reaches the root-leaf case of `removeNode` and dereferences the
null parent (lines 246-250), so the run never reaches an empty tree. -/
theorem insert_set_remove_set_crashes :
    runOps [Op.ins 0, Op.ins 1, Op.rem 0, Op.rem 1] = none := by
  decide

/-! ### C4 : counterexample -/

/-- The tree reached by inserting 0..7 in ascending order (it stores 7
inside the left subtree, see C1). -/
def badTree8 : Tree :=
  Tree.node 4 3 Color.black
    (Tree.node 2 1 Color.red
      (Tree.node 1 0 Color.black Tree.nil Tree.nil)
      (Tree.node 3 2 Color.black Tree.nil
        (Tree.node 8 7 Color.red Tree.nil Tree.nil)))
    (Tree.node 6 5 Color.red
      (Tree.node 5 4 Color.black Tree.nil Tree.nil)
      (Tree.node 7 6 Color.black Tree.nil Tree.nil))

/-- C4 fails as stated: on the reachable (non-BST-ordered) tree produced by
the ascending inserts 0..7, `find_max` returns 6 although 7 is stored, so
"find_max() returns the largest stored value" does not hold on every
reachable non-empty tree. -/
theorem find_max_not_largest :
    treeAfter (insList [0, 1, 2, 3, 4, 5, 6, 7]) = some badTree8 ∧
      findMaxPub badTree8 = Except.ok 6 ∧ (7 : Int) ∈ badTree8.inorder :=
  ⟨by decide, rfl, by decide⟩

/-! ### C5 : counterexample -/

/-- Tree reached by inserting 1, 0, 2. -/
def triTree : Tree :=
  Tree.node 1 1 Color.black
    (Tree.node 2 0 Color.red Tree.nil Tree.nil)
    (Tree.node 3 2 Color.red Tree.nil Tree.nil)

/-- The same tree after the duplicate insert of 0: same nodes, recolored. -/
def triTreeRecolored : Tree :=
  Tree.node 1 1 Color.black
    (Tree.node 2 0 Color.black Tree.nil Tree.nil)
    (Tree.node 3 2 Color.black Tree.nil Tree.nil)

/-- C5 fails as stated: inserting an already-present value is not a no-op.
Inserting 0 again into the reachable tree {1,0,2} recolors both children
(the 4-node split of lines 360-362 runs on the search path before the
equality check of line 319 is reached), and inserting 4 again into the
tree built from 0..6 even allocates an eighth node (the red-red fixup
misnavigates, then attaches a duplicate). -/
theorem insert_present_not_noop :
    treeAfter (insList [1, 0, 2]) = some triTree ∧
      containsAfter (insList [1, 0, 2]) 0 = some true ∧
      treeAfter (insList [1, 0, 2, 0]) = some triTreeRecolored ∧
      triTreeRecolored ≠ triTree ∧
      containsAfter (insList [0, 1, 2, 3, 4, 5, 6]) 4 = some true ∧
      sizeAfter (insList [0, 1, 2, 3, 4, 5, 6]) = some 7 ∧
      sizeAfter (insList [0, 1, 2, 3, 4, 5, 6, 4]) = some 8 := by
  decide

/-! ### C6 : counterexample -/

/-- Tree reached by the public inserts 0, 1, 2, 0 (the duplicate insert
turned all nodes black). -/
def allBlackTri : Tree :=
  Tree.node 2 1 Color.black
    (Tree.node 1 0 Color.black Tree.nil Tree.nil)
    (Tree.node 3 2 Color.black Tree.nil Tree.nil)

/-- The same tree after `remove(3)`: children recolored red. -/
def allBlackTriAfter : Tree :=
  Tree.node 2 1 Color.black
    (Tree.node 1 0 Color.red Tree.nil Tree.nil)
    (Tree.node 3 2 Color.red Tree.nil Tree.nil)

/-- C6 fails as stated: removing the absent value 3 from the reachable tree
{0,1,2} (all-black) recolors nodes on the search path (the public `remove`
repaints the root red, then lines 272-279 recolor the sibling pair), so
the tree is not left completely unchanged. -/
theorem remove_absent_not_noop :
    treeAfter (insList [0, 1, 2, 0]) = some allBlackTri ∧
      containsAfter (insList [0, 1, 2, 0]) 3 = some false ∧
      allBlackTri.inorder = [0, 1, 2] ∧
      removePub 100 allBlackTri 3 = some allBlackTriAfter ∧
      allBlackTriAfter ≠ allBlackTri := by
  decide

/-! ### C9 : counterexample -/

/-- An all-black tree whose leftmost-path black counts agree at the root
but whose full black-height invariant fails below the root. -/
def lopsidedTree : Tree :=
  Tree.node 1 1 Color.black
    (Tree.node 2 0 Color.black Tree.nil Tree.nil)
    (Tree.node 3 2 Color.black Tree.nil
      (Tree.node 4 3 Color.black Tree.nil Tree.nil))

/-- C9 fails as stated: `followsRules` accepts `lopsidedTree` although the
black-height invariant is violated (the paths below node 3 pass through
different numbers of black nodes).  `blackHeight` (lines 431-436) only
counts the leftmost path, and only compares the root's two children. -/
theorem followsRules_not_equivalent :
    followsRulesPub lopsidedTree = true ∧
      specNoRedRed lopsidedTree = true ∧
      specBlackHeight lopsidedTree = none := by
  decide

/-! ### C9 : amended -/

/-- The code's `doubleRed` check is exactly the negation of the spec's
global no-red-red invariant. -/
theorem doubleRed_eq (t : Tree) : doubleRed t = !specNoRedRed t := by
  induction t with
  | nil => rfl
  | node i v c l r ihl ihr =>
    simp only [doubleRed, specNoRedRed, Tree.hasColorChild, Tree.leftOf, Tree.rightOf, ihl, ihr]
    cases c <;> cases l <;> cases r <;>
      simp [Tree.colOf, Bool.or_assoc, Bool.and_assoc, Bool.or_comm, Bool.or_left_comm]

/-- C9 amended: `followsRules` returns true iff no red node anywhere has a
red child and the leftmost-path black counts (`blackHeight`) of the root's
two subtrees agree (trivially true for the empty tree).  The full
black-height invariant implies this, but not conversely (see the
counterexample). -/
theorem followsRules_characterization :
    ∀ t : Tree, followsRulesPub t = true ↔
      (specNoRedRed t = true ∧
        (t = Tree.nil ∨ blackHeight t.leftOf = blackHeight t.rightOf)) := by
  intro t
  cases t with
  | nil => simp [followsRulesPub, specNoRedRed]
  | node i v c l r =>
    simp [followsRulesPub, followsRulesNode, doubleRed_eq]

/-! ### C4 : amended -/

theorem strictlyIncreasing_iff_chain (xs : List Int) :
    strictlyIncreasing xs = true ↔ List.Chain' (fun a b => a < b) xs := by
  induction xs with
  | nil => simp [strictlyIncreasing]
  | cons a rest ih =>
    cases rest with
    | nil => simp [strictlyIncreasing]
    | cons b rest2 =>
      simp [strictlyIncreasing, ih, List.chain'_cons]

theorem inorder_node_ne_nil (i : Nat) (v : Int) (c : Color) (l r : Tree) :
    (Tree.node i v c l r).inorder ≠ [] := by
  simp [Tree.inorder]

theorem mem_of_head?_eq {xs : List Int} {m : Int} (h : xs.head? = some m) : m ∈ xs := by
  have h2 := List.eq_cons_of_mem_head? (x := m) (l := xs) h
  rw [h2]
  exact List.mem_cons_self _ _

theorem mem_of_getLast?_eq {xs : List Int} {M : Int} (h : xs.getLast? = some M) : M ∈ xs := by
  rcases List.mem_getLast?_eq_getLast (l := xs) (x := M) h with ⟨hne, hM⟩
  rw [hM]
  exact List.getLast_mem hne

/-- The private `find_min` descent reads the first element of the in-order
traversal. -/
theorem findMinNode_head : ∀ t : Tree, t ≠ Tree.nil →
    t.inorder.head? = some ((findMinNode t).valOf) := by
  intro t
  induction t with
  | nil => intro h; exact absurd rfl h
  | node i v c l r ihl ihr =>
    intro _
    cases l with
    | nil => simp [findMinNode, Tree.inorder, Tree.valOf]
    | node j w cc a b =>
      have h1 := ihl (by simp)
      rw [show (Tree.node i v c (Tree.node j w cc a b) r).inorder =
        (Tree.node j w cc a b).inorder ++ v :: r.inorder from rfl]
      rw [show findMinNode (Tree.node i v c (Tree.node j w cc a b) r) =
        findMinNode (Tree.node j w cc a b) from rfl]
      rw [List.head?_append_of_ne_nil _ (inorder_node_ne_nil j w cc a b)]
      exact h1

/-- The all-right descent of `find_max` reads the last element of the
in-order traversal. -/
theorem findMaxNode_last : ∀ t : Tree, t ≠ Tree.nil →
    t.inorder.getLast? = some ((findMaxNode t).valOf) := by
  intro t
  induction t with
  | nil => intro h; exact absurd rfl h
  | node i v c l r ihl ihr =>
    intro _
    cases r with
    | nil =>
      rw [show (Tree.node i v c l Tree.nil).inorder = l.inorder ++ v :: [] from rfl]
      rw [List.getLast?_append_cons]
      rfl
    | node j w cc a b =>
      have h1 := ihr (by simp)
      rw [show (Tree.node j w cc a b).inorder = a.inorder ++ w :: b.inorder from rfl,
        List.getLast?_append_cons] at h1
      rw [show (Tree.node i v c l (Tree.node j w cc a b)).inorder =
        l.inorder ++ v :: (a.inorder ++ w :: b.inorder) from rfl]
      rw [List.getLast?_append_cons]
      rw [show (v :: (a.inorder ++ w :: b.inorder)) =
        (v :: a.inorder) ++ w :: b.inorder from rfl]
      rw [List.getLast?_append_cons]
      rw [show findMaxNode (Tree.node i v c l (Tree.node j w cc a b)) =
        findMaxNode (Tree.node j w cc a b) from rfl]
      exact h1

theorem pairwise_head_le {xs : List Int} (h : List.Pairwise (fun a b => a < b) xs)
    {m : Int} (hm : xs.head? = some m) : ∀ w ∈ xs, m ≤ w := by
  cases xs with
  | nil => simp at hm
  | cons x rest =>
    simp only [List.head?_cons, Option.some.injEq] at hm
    subst hm
    intro w hw
    rcases List.mem_cons.mp hw with h1 | h1
    · exact le_of_eq h1.symm
    · exact le_of_lt ((List.pairwise_cons.mp h).1 w h1)

theorem pairwise_le_last : ∀ {xs : List Int},
    List.Pairwise (fun a b => a < b) xs →
    ∀ {M : Int}, xs.getLast? = some M → ∀ w ∈ xs, w ≤ M := by
  intro xs
  induction xs with
  | nil => intro _ M hM; simp at hM
  | cons x rest ih =>
    intro h M hM w hw
    cases rest with
    | nil =>
      have hMx : M = x := by
        have : ([x] : List Int).getLast? = some x := rfl
        rw [this] at hM
        exact (Option.some.injEq _ _ ▸ hM).symm
      simp only [List.mem_singleton] at hw
      rw [hMx, hw]
    | cons y rest2 =>
      rw [List.getLast?_cons_cons] at hM
      have hy := ih (List.pairwise_cons.mp h).2 hM
      rcases List.mem_cons.mp hw with h1 | h1
      · subst h1
        have hMmem : M ∈ y :: rest2 := mem_of_getLast?_eq hM
        exact le_of_lt ((List.pairwise_cons.mp h).1 M hMmem)
      · exact hy w h1

/-- C4 amended: `find_min` / `find_max` fail with the empty-tree error
exactly when the tree is empty (and, being read-only functions of the tree
in this embedding, they modify nothing); on every non-empty tree whose
in-order traversal is strictly increasing they return the smallest
respectively largest stored value, reached by the all-left / all-right
descent.  (On reachable trees that are not BST-ordered — see C1 — the
returned value can fail to be extremal, see the counterexample.) -/
theorem find_min_max_spec :
    ∀ t : Tree,
      ((findMinPub t = Except.error "Red Black Tree is empty") ↔ t = Tree.nil) ∧
      ((findMaxPub t = Except.error "Red Black Tree is empty") ↔ t = Tree.nil) ∧
      (t ≠ Tree.nil → strictlyIncreasing t.inorder = true →
        ∃ m M, findMinPub t = Except.ok m ∧ findMaxPub t = Except.ok M ∧
          m ∈ t.inorder ∧ M ∈ t.inorder ∧ ∀ w ∈ t.inorder, m ≤ w ∧ w ≤ M) := by
  intro t
  refine ⟨?_, ?_, ?_⟩
  · cases t <;> simp [findMinPub]
  · cases t <;> simp [findMaxPub]
  · intro hne hsorted
    have hpw : List.Pairwise (fun a b => a < b) t.inorder :=
      List.chain'_iff_pairwise.mp ((strictlyIncreasing_iff_chain _).mp hsorted)
    have hmin := findMinNode_head t hne
    have hmax := findMaxNode_last t hne
    refine ⟨(findMinNode t).valOf, (findMaxNode t).valOf, ?_, ?_, ?_, ?_, ?_⟩
    · cases t with
      | nil => exact absurd rfl hne
      | node i v c l r => rfl
    · cases t with
      | nil => exact absurd rfl hne
      | node i v c l r => rfl
    · exact mem_of_head?_eq hmin
    · exact mem_of_getLast?_eq hmax
    · intro w hw
      exact ⟨pairwise_head_le hpw hmin w hw, pairwise_le_last hpw hmax w hw⟩

/-- Witness for C4's amended theorem at the concrete tree {0,1,2}. -/
theorem find_min_max_spec_witness :
    (triTree ≠ Tree.nil ∧ strictlyIncreasing triTree.inorder = true) ∧
      (∃ m M, findMinPub triTree = Except.ok m ∧ findMaxPub triTree = Except.ok M ∧
        m ∈ triTree.inorder ∧ M ∈ triTree.inorder ∧
        ∀ w ∈ triTree.inorder, m ≤ w ∧ w ≤ M) :=
  ⟨⟨by decide, by decide⟩, (find_min_max_spec triTree).2.2 (by decide) (by decide)⟩

/-! ### C7 : rotations -/

/-- The subtree rooted at the node reached by a path of child-pointer steps. -/
def nodeAt : Tree → List Dir → Option Tree
  | t, [] => some t
  | Tree.nil, _ :: _ => none
  | Tree.node _ _ _ l _, Dir.left :: p => nodeAt l p
  | Tree.node _ _ _ _ r, Dir.right :: p => nodeAt r p

/-- `rotateLeft` applied to the node at path `p`, with the result re-linked
into the surrounding tree exactly as lines 144-150 re-link `temp` into the
grandparent (or `_root`).  Also returns the identity of the node the C++
function returns (`temp`, the old right child). -/
def rotateLeftAt : Tree → List Dir → Option (Tree × Nat)
  | t, [] => (rotateLeft t).map fun t2 => (t2, t2.idOf)
  | Tree.nil, _ :: _ => none
  | Tree.node i v c l r, Dir.left :: p =>
    (rotateLeftAt l p).map fun q => (Tree.node i v c q.1 r, q.2)
  | Tree.node i v c l r, Dir.right :: p =>
    (rotateLeftAt r p).map fun q => (Tree.node i v c l q.1, q.2)

/-- `rotateRight` applied at a path, as `rotateLeftAt`. -/
def rotateRightAt : Tree → List Dir → Option (Tree × Nat)
  | t, [] => (rotateRight t).map fun t2 => (t2, t2.idOf)
  | Tree.nil, _ :: _ => none
  | Tree.node i v c l r, Dir.left :: p =>
    (rotateRightAt l p).map fun q => (Tree.node i v c q.1 r, q.2)
  | Tree.node i v c l r, Dir.right :: p =>
    (rotateRightAt r p).map fun q => (Tree.node i v c l q.1, q.2)

theorem rotateLeftAt_spec : ∀ (p : List Dir) (t t2 : Tree) (j : Nat),
    rotateLeftAt t p = some (t2, j) →
    t2.inorder = t.inorder ∧ t2.size = t.size ∧
      ∃ x, nodeAt t p = some x ∧ x.rightOf ≠ Tree.nil ∧ j = x.rightOf.idOf ∧
        (nodeAt t2 p).map Tree.idOf = some j := by
  intro p
  induction p with
  | nil =>
    intro t t2 j h
    match t, h with
    | Tree.node i v c l (Tree.node jj w cc a b), h =>
      simp only [rotateLeftAt, rotateLeft, Option.map_some', Option.some.injEq, Prod.mk.injEq] at h
      obtain ⟨h1, h2⟩ := h
      subst h1
      subst h2
      refine ⟨?_, ?_, Tree.node i v c l (Tree.node jj w cc a b), rfl, by simp [Tree.rightOf], rfl, rfl⟩
      · simp [Tree.inorder, Tree.idOf]
      · simp [Tree.size, Tree.idOf]
        omega
  | cons d p ih =>
    intro t t2 j h
    match d, t, h with
    | Dir.left, Tree.node i v c l r, h =>
      simp only [rotateLeftAt] at h
      match hq : rotateLeftAt l p with
      | none => rw [hq] at h; simp at h
      | some q =>
        rw [hq] at h
        simp only [Option.map_some', Option.some.injEq, Prod.mk.injEq] at h
        obtain ⟨h1, h2⟩ := h
        obtain ⟨hio, hsz, x, hx, hxr, hj, hat⟩ := ih l q.1 q.2 (by rw [hq])
        subst h2
        refine ⟨?_, ?_, x, ?_, hxr, hj, ?_⟩
        · rw [← h1]; simp [Tree.inorder, hio]
        · rw [← h1]; simp [Tree.size, hsz]
        · simpa [nodeAt] using hx
        · rw [← h1]; simpa [nodeAt] using hat
    | Dir.right, Tree.node i v c l r, h =>
      simp only [rotateLeftAt] at h
      match hq : rotateLeftAt r p with
      | none => rw [hq] at h; simp at h
      | some q =>
        rw [hq] at h
        simp only [Option.map_some', Option.some.injEq, Prod.mk.injEq] at h
        obtain ⟨h1, h2⟩ := h
        obtain ⟨hio, hsz, x, hx, hxr, hj, hat⟩ := ih r q.1 q.2 (by rw [hq])
        subst h2
        refine ⟨?_, ?_, x, ?_, hxr, hj, ?_⟩
        · rw [← h1]; simp [Tree.inorder, hio]
        · rw [← h1]; simp [Tree.size, hsz]
        · simpa [nodeAt] using hx
        · rw [← h1]; simpa [nodeAt] using hat

theorem rotateRightAt_spec : ∀ (p : List Dir) (t t2 : Tree) (j : Nat),
    rotateRightAt t p = some (t2, j) →
    t2.inorder = t.inorder ∧ t2.size = t.size ∧
      ∃ x, nodeAt t p = some x ∧ x.leftOf ≠ Tree.nil ∧ j = x.leftOf.idOf ∧
        (nodeAt t2 p).map Tree.idOf = some j := by
  intro p
  induction p with
  | nil =>
    intro t t2 j h
    match t, h with
    | Tree.node i v c (Tree.node jj w cc a b) r, h =>
      simp only [rotateRightAt, rotateRight, Option.map_some', Option.some.injEq, Prod.mk.injEq] at h
      obtain ⟨h1, h2⟩ := h
      subst h1
      subst h2
      refine ⟨?_, ?_, Tree.node i v c (Tree.node jj w cc a b) r, rfl, by simp [Tree.leftOf], rfl, rfl⟩
      · simp [Tree.inorder, Tree.idOf]
      · simp [Tree.size, Tree.idOf]
        omega
  | cons d p ih =>
    intro t t2 j h
    match d, t, h with
    | Dir.left, Tree.node i v c l r, h =>
      simp only [rotateRightAt] at h
      match hq : rotateRightAt l p with
      | none => rw [hq] at h; simp at h
      | some q =>
        rw [hq] at h
        simp only [Option.map_some', Option.some.injEq, Prod.mk.injEq] at h
        obtain ⟨h1, h2⟩ := h
        obtain ⟨hio, hsz, x, hx, hxr, hj, hat⟩ := ih l q.1 q.2 (by rw [hq])
        subst h2
        refine ⟨?_, ?_, x, ?_, hxr, hj, ?_⟩
        · rw [← h1]; simp [Tree.inorder, hio]
        · rw [← h1]; simp [Tree.size, hsz]
        · simpa [nodeAt] using hx
        · rw [← h1]; simpa [nodeAt] using hat
    | Dir.right, Tree.node i v c l r, h =>
      simp only [rotateRightAt] at h
      match hq : rotateRightAt r p with
      | none => rw [hq] at h; simp at h
      | some q =>
        rw [hq] at h
        simp only [Option.map_some', Option.some.injEq, Prod.mk.injEq] at h
        obtain ⟨h1, h2⟩ := h
        obtain ⟨hio, hsz, x, hx, hxr, hj, hat⟩ := ih r q.1 q.2 (by rw [hq])
        subst h2
        refine ⟨?_, ?_, x, ?_, hxr, hj, ?_⟩
        · rw [← h1]; simp [Tree.inorder, hio]
        · rw [← h1]; simp [Tree.size, hsz]
        · simpa [nodeAt] using hx
        · rw [← h1]; simpa [nodeAt] using hat

/-- C7: wherever `rotateLeft` is applied to a node whose right child exists
(and symmetrically `rotateRight` to a node whose left child exists), the
resulting whole tree has exactly the same node count and the same in-order
value sequence, and the function returns the child that took the rotated
node's position (the node now found at that position is the old
right/left child). -/
theorem rotations_preserve :
    (∀ (t : Tree) (p : List Dir) (t2 : Tree) (j : Nat),
      rotateLeftAt t p = some (t2, j) →
      t2.inorder = t.inorder ∧ t2.size = t.size ∧
        ∃ x, nodeAt t p = some x ∧ x.rightOf ≠ Tree.nil ∧ j = x.rightOf.idOf ∧
          (nodeAt t2 p).map Tree.idOf = some j) ∧
    (∀ (t : Tree) (p : List Dir) (t2 : Tree) (j : Nat),
      rotateRightAt t p = some (t2, j) →
      t2.inorder = t.inorder ∧ t2.size = t.size ∧
        ∃ x, nodeAt t p = some x ∧ x.leftOf ≠ Tree.nil ∧ j = x.leftOf.idOf ∧
          (nodeAt t2 p).map Tree.idOf = some j) :=
  ⟨fun t p => rotateLeftAt_spec p t, fun t p => rotateRightAt_spec p t⟩

/-! ### Value-multiset bookkeeping for the zipper -/

/-- Values stored in the parent chain: each frame contributes its node's
value and the values of the sibling subtree. -/
def ctxVals : List Frame → Multiset Int
  | [] => 0
  | f :: ctx => (f.value ::ₘ f.sib.vals) + ctxVals ctx

theorem vals_setColor (t : Tree) (c : Color) : (t.setColor c).vals = t.vals := by
  cases t <;> rfl

theorem vals_fill (f : Frame) (t : Tree) :
    (f.fill t).vals = f.value ::ₘ (t.vals + f.sib.vals) := by
  cases f with
  | mk d i v c s =>
    cases d
    · rfl
    · show (Tree.node i v c s t).vals = v ::ₘ (t.vals + s.vals)
      simp only [Tree.vals]
      rw [add_comm]

theorem vals_plug : ∀ (ctx : List Frame) (t : Tree),
    (plug t ctx).vals = t.vals + ctxVals ctx := by
  intro ctx
  induction ctx with
  | nil => intro t; simp [plug, ctxVals]
  | cons f ctx ih =>
    intro t
    show (plug (f.fill t) ctx).vals = t.vals + ((f.value ::ₘ f.sib.vals) + ctxVals ctx)
    rw [ih, vals_fill]
    rw [← Multiset.singleton_add, ← Multiset.singleton_add]
    abel

/-- Every run of the private `insert` only ever adds copies of the inserted
value: the value multiset of the produced whole tree is the old whole-tree
multiset plus `k` copies of `value` (the code may attach a duplicate when
the tree is not BST-ordered, hence `k` is not always ≤ 1). -/
theorem insert_vals : ∀ fuel : Nat,
    (∀ ctx t value nid out, insertGo fuel ctx t value nid = some out →
      ∃ k, out.1.vals = Multiset.replicate k value + (plug t ctx).vals) ∧
    (∀ ctx t value nid out, insertFix fuel ctx t value nid = some out →
      ∃ k, out.1.vals = Multiset.replicate k value + (plug t ctx).vals) ∧
    (∀ ctx t value nid out, insertStep fuel ctx t value nid = some out →
      ∃ k, out.1.vals = Multiset.replicate k value + (plug t ctx).vals) := by
  intro fuel
  induction fuel with
  | zero =>
    refine ⟨?_, ?_, ?_⟩ <;> · intro ctx t value nid out h; simp [insertGo, insertFix, insertStep] at h
  | succ fuel ih =>
    obtain ⟨ihGo, ihFix, ihStep⟩ := ih
    refine ⟨?_, ?_, ?_⟩
    · -- insertGo
      intro ctx t value nid out h
      cases t with
      | nil =>
        cases ctx with
        | nil =>
          simp only [insertGo, Option.some.injEq] at h
          refine ⟨1, ?_⟩
          rw [← h]
          simp [Tree.vals, plug, ctxVals, Multiset.replicate_one]
        | cons f rest => simp [insertGo] at h
      | node i v c l r =>
        simp only [insertGo] at h
        by_cases hv : v = value
        · rw [if_pos hv] at h
          simp only [Option.some.injEq] at h
          exact ⟨0, by rw [← h]; simp⟩
        · rw [if_neg hv] at h
          by_cases hgt : v > value
          · rw [if_pos hgt] at h
            cases l with
            | nil =>
              dsimp only at h
              by_cases hc : c = Color.black
              · rw [if_pos hc] at h
                simp only [Option.some.injEq] at h
                refine ⟨1, ?_⟩
                rw [← h]
                simp only [vals_plug, Tree.vals, Multiset.replicate_one,
                  ← Multiset.singleton_add, add_zero, zero_add]
                abel
              · rw [if_neg hc] at h
                by_cases hsib : siblingT ctx = Tree.nil
                · rw [if_pos hsib] at h
                  cases ctx with
                  | nil => simp at h
                  | cons f rest =>
                    obtain ⟨fd, fi, fv, fc, fs⟩ := f
                    cases fd <;>
                    · simp only [Option.some.injEq] at h
                      refine ⟨1, ?_⟩
                      rw [← h]
                      simp only [vals_plug, Tree.vals, Tree.setColor, ctxVals,
                        Multiset.replicate_one, ← Multiset.singleton_add,
                        add_zero, zero_add]
                      abel
                · rw [if_neg hsib] at h
                  obtain ⟨k, hk⟩ := ihFix _ _ _ _ _ h
                  refine ⟨k + 1, ?_⟩
                  rw [hk]
                  simp only [vals_plug, Tree.vals, Multiset.replicate_succ,
                    ← Multiset.singleton_add, add_zero, zero_add]
                  abel
            | node li lv lc ll lr =>
              dsimp only at h
              obtain ⟨k, hk⟩ := ihFix _ _ _ _ _ h
              exact ⟨k, hk⟩
          · rw [if_neg hgt] at h
            cases r with
            | nil =>
              dsimp only at h
              by_cases hc : c = Color.black
              · rw [if_pos hc] at h
                simp only [Option.some.injEq] at h
                refine ⟨1, ?_⟩
                rw [← h]
                simp only [vals_plug, Tree.vals, Multiset.replicate_one,
                  ← Multiset.singleton_add, add_zero, zero_add]
                abel
              · rw [if_neg hc] at h
                by_cases hsib : siblingT ctx = Tree.nil
                · rw [if_pos hsib] at h
                  cases ctx with
                  | nil => simp at h
                  | cons f rest =>
                    obtain ⟨fd, fi, fv, fc, fs⟩ := f
                    cases fd <;>
                    · simp only [Option.some.injEq] at h
                      refine ⟨1, ?_⟩
                      rw [← h]
                      simp only [vals_plug, Tree.vals, Tree.setColor, ctxVals,
                        Multiset.replicate_one, ← Multiset.singleton_add,
                        add_zero, zero_add]
                      abel
                · rw [if_neg hsib] at h
                  obtain ⟨k, hk⟩ := ihFix _ _ _ _ _ h
                  refine ⟨k + 1, ?_⟩
                  rw [hk]
                  simp only [vals_plug, Tree.vals, Multiset.replicate_succ,
                    ← Multiset.singleton_add, add_zero, zero_add]
                  abel
            | node ri rv rc rl rr =>
              dsimp only at h
              obtain ⟨k, hk⟩ := ihFix _ _ _ _ _ h
              exact ⟨k, hk⟩
    · -- insertFix
      intro ctx t value nid out h
      cases t with
      | nil => simp [insertFix] at h
      | node i v c l r =>
        simp only [insertFix] at h
        by_cases hcc : (Tree.node i v c l r).hasColorChildren Color.red = true
        · rw [if_pos hcc] at h
          cases ctx with
          | nil =>
            dsimp only at h
            obtain ⟨k, hk⟩ := ihStep _ _ _ _ _ h
            refine ⟨k, ?_⟩
            rw [hk]
            simp only [vals_plug, Tree.vals, vals_setColor, plug, ← Multiset.singleton_add]
          | cons f rest =>
            obtain ⟨fd, fi, fv, fc, fs⟩ := f
            by_cases hfc : fc = Color.red
            · dsimp only at h
              rw [if_pos hfc] at h
              cases rest with
              | nil =>
                obtain ⟨k, hk⟩ := ihStep _ _ _ _ _ h
                refine ⟨k, ?_⟩
                rw [hk]
                simp only [vals_plug, Tree.vals, vals_setColor]
              | cons g rest2 =>
                obtain ⟨gd, gi, gv, gc, gs⟩ := g
                cases fd <;> cases gd <;>
                · dsimp only at h
                  obtain ⟨k, hk⟩ := ihGo _ _ _ _ _ h
                  refine ⟨k, ?_⟩
                  rw [hk]
                  simp only [vals_plug, Tree.vals, vals_setColor, ctxVals,
                    ← Multiset.singleton_add, add_zero, zero_add]
                  abel
            · dsimp only at h
              rw [if_neg hfc] at h
              obtain ⟨k, hk⟩ := ihStep _ _ _ _ _ h
              refine ⟨k, ?_⟩
              rw [hk]
              simp only [vals_plug, Tree.vals, vals_setColor]
        · rw [if_neg hcc] at h
          obtain ⟨k, hk⟩ := ihStep _ _ _ _ _ h
          exact ⟨k, hk⟩
    · -- insertStep
      intro ctx t value nid out h
      cases t with
      | nil => simp [insertStep] at h
      | node i v c l r =>
        simp only [insertStep] at h
        by_cases hgt : v > value
        · rw [if_pos hgt] at h
          obtain ⟨k, hk⟩ := ihGo _ _ _ _ _ h
          refine ⟨k, ?_⟩
          rw [hk]
          simp only [vals_plug, Tree.vals, ctxVals, ← Multiset.singleton_add,
            add_zero, zero_add]
          abel
        · rw [if_neg hgt] at h
          obtain ⟨k, hk⟩ := ihGo _ _ _ _ _ h
          refine ⟨k, ?_⟩
          rw [hk]
          simp only [vals_plug, Tree.vals, ctxVals, ← Multiset.singleton_add,
            add_zero, zero_add]
          abel

/-- C5 amended: whenever the public `insert` of a value that is already
stored completes, the *set* of stored values is unchanged (the call may
recolor, restructure, and may even allocate a duplicate node — see the
counterexample — but it never adds any other value and never removes
one). -/
theorem insert_present_preserves_value_set :
    ∀ (fuel : Nat) (t : Tree) (value : Int) (nid : Nat) (out : Tree × Nat),
      value ∈ t.vals → insertPub fuel t value nid = some out →
      out.1.vals.toFinset = t.vals.toFinset := by
  intro fuel t value nid out hmem h
  simp only [insertPub, Option.bind_eq_some] at h
  obtain ⟨p, hp, hout⟩ := h
  obtain ⟨k, hk⟩ := (insert_vals fuel).1 [] t value nid p hp
  have hvals : out.1.vals = p.1.vals := by
    match p, hout with
    | (Tree.node i v cc l r, n), hout =>
      simp only [Option.some.injEq] at hout
      rw [← hout]
      simp [Tree.vals]
  rw [hvals, hk]
  simp only [plug]
  rw [Multiset.toFinset_add, Multiset.toFinset_replicate]
  cases k with
  | zero => simp
  | succ k =>
    have : value ∈ t.vals.toFinset := Multiset.mem_toFinset.mpr hmem
    simp only [Nat.succ_ne_zero, if_false]
    rw [Finset.union_eq_right.mpr (Finset.singleton_subset_iff.mpr this)]

/-- Witness for C5's amended theorem: the duplicate insert of 0 into the
tree {1,0,2} completes and preserves the value set. -/
theorem insert_present_preserves_value_set_witness :
    (0 : Int) ∈ triTree.vals ∧
      insertPub 100 triTree 0 4 = some (triTreeRecolored, 4) ∧
      triTreeRecolored.vals.toFinset = triTree.vals.toFinset :=
  ⟨by decide, by decide,
    insert_present_preserves_value_set 100 triTree 0 4 (triTreeRecolored, 4)
      (by decide) (by decide)⟩

/-- Relocating a node by identity yields a zipper for the same whole tree. -/
theorem zipToId_plug : ∀ (t : Tree) (ctx : List Frame) (target : Nat)
    (z : List Frame × Tree), zipToId ctx t target = some z →
    plug z.2 z.1 = plug t ctx := by
  intro t
  induction t with
  | nil => intro ctx target z h; simp [zipToId] at h
  | node i v c l r ihl ihr =>
    intro ctx target z h
    simp only [zipToId] at h
    by_cases hi : i = target
    · rw [if_pos hi] at h
      simp only [Option.some.injEq] at h
      rw [← h]
    · rw [if_neg hi] at h
      match hl : zipToId (Frame.mk Dir.left i v c r :: ctx) l target with
      | some res =>
        rw [hl] at h
        simp only [Option.some.injEq] at h
        rw [← h]
        exact ihl _ _ _ hl
      | none =>
        rw [hl] at h
        exact ihr _ _ _ h

/-- The focussed node's value is stored in the whole tree. -/
theorem val_mem_plug (ctx : List Frame) (i : Nat) (v : Int) (c : Color)
    (l r : Tree) : v ∈ (plug (Tree.node i v c l r) ctx).vals := by
  rw [vals_plug]
  apply Multiset.mem_add.mpr
  left
  simp only [Tree.vals]
  exact Multiset.mem_cons_self _ _

/-- A run of the private `remove` searching for a value that the tree does
not store never changes the stored value multiset: every recoloring and
rotation on the way down preserves the values, and `removeNode` (the only
deleting/swapping operation) is guarded by `node->value == value`. -/
theorem remove_vals : ∀ fuel : Nat,
    (∀ ctx t value t', value ∉ (plug t ctx).vals →
      removeGo fuel ctx t value = some t' → t'.vals = (plug t ctx).vals) ∧
    (∀ ctx t value t', value ∉ (plug t ctx).vals →
      removeStep fuel ctx t value = some t' → t'.vals = (plug t ctx).vals) ∧
    (∀ ctx t value t', value ∉ (plug t ctx).vals →
      removeFinish fuel ctx t value = some t' → t'.vals = (plug t ctx).vals) := by
  intro fuel
  induction fuel with
  | zero =>
    refine ⟨?_, ?_, ?_⟩ <;>
      · intro ctx t value t' hmem h
        simp [removeGo, removeStep, removeFinish] at h
  | succ fuel ih =>
    obtain ⟨ihGo, ihStep, ihFin⟩ := ih
    refine ⟨?_, ?_, ?_⟩
    · -- removeGo
      intro ctx t value t' hmem h
      cases t with
      | nil =>
        simp only [removeGo, Option.some.injEq] at h
        rw [← h]
      | node i v c l r =>
        simp only [removeGo] at h
        by_cases hb1 : (Tree.node i v c l r).hasColorChildren Color.black = true
        · rw [if_pos hb1] at h
          by_cases hs : siblingT ctx = Tree.nil
          · rw [if_pos hs] at h
            by_cases hv : v = value
            · subst hv
              exact absurd (val_mem_plug ctx i v c l r) hmem
            · rw [if_neg hv] at h
              by_cases hlt : v < value
              · rw [if_pos hlt] at h
                have hsame : (plug r (Frame.mk Dir.right i v c l :: ctx)).vals =
                    (plug (Tree.node i v c l r) ctx).vals := by
                  simp only [vals_plug, Tree.vals, ctxVals,
                    ← Multiset.singleton_add, add_zero, zero_add]
                  abel
                rw [ihGo _ _ _ _ (by rw [hsame]; exact hmem) h, hsame]
              · rw [if_neg hlt] at h
                have hsame : (plug l (Frame.mk Dir.left i v c r :: ctx)).vals =
                    (plug (Tree.node i v c l r) ctx).vals := by
                  simp only [vals_plug, Tree.vals, ctxVals,
                    ← Multiset.singleton_add, add_zero, zero_add]
                  abel
                rw [ihGo _ _ _ _ (by rw [hsame]; exact hmem) h, hsame]
          · rw [if_neg hs] at h
            cases ctx with
            | nil => simp at h
            | cons f rest =>
              obtain ⟨fd, fi, fv, fc, fs⟩ := f
              by_cases hsb : fs.hasColorChildren Color.black = true
              · dsimp only at h
                rw [if_pos hsb] at h
                by_cases hv : v = value
                · subst hv
                  exact absurd (val_mem_plug _ i v c l r) hmem
                · rw [if_neg hv] at h
                  by_cases hlt : v < value
                  · rw [if_pos hlt] at h
                    have hsame : (plug r (Frame.mk Dir.right i v Color.red l ::
                        Frame.mk fd fi fv Color.black (fs.setColor Color.red) :: rest)).vals =
                        (plug (Tree.node i v c l r) (Frame.mk fd fi fv fc fs :: rest)).vals := by
                      simp only [vals_plug, Tree.vals, vals_setColor, ctxVals,
                        ← Multiset.singleton_add, add_zero, zero_add]
                      abel
                    rw [ihGo _ _ _ _ (by rw [hsame]; exact hmem) h, hsame]
                  · rw [if_neg hlt] at h
                    have hsame : (plug l (Frame.mk Dir.left i v Color.red r ::
                        Frame.mk fd fi fv Color.black (fs.setColor Color.red) :: rest)).vals =
                        (plug (Tree.node i v c l r) (Frame.mk fd fi fv fc fs :: rest)).vals := by
                      simp only [vals_plug, Tree.vals, vals_setColor, ctxVals,
                        ← Multiset.singleton_add, add_zero, zero_add]
                      abel
                    rw [ihGo _ _ _ _ (by rw [hsame]; exact hmem) h, hsame]
              · dsimp only at h
                rw [if_neg hsb] at h
                cases fd with
                | left =>
                  cases fs with
                  | nil => simp at h
                  | node j w cc a b =>
                    cases b with
                    | nil => simp at h
                    | node k x ck p q =>
                      dsimp only at h
                      by_cases hck : ck = Color.red
                      · rw [if_pos hck] at h
                        have hsame : (plug (Tree.node i v Color.red l r)
                            (Frame.mk Dir.left fi fv Color.black (Tree.node j w cc a p) ::
                              Frame.mk Dir.left k x ck q :: rest)).vals =
                            (plug (Tree.node i v c l r) (Frame.mk Dir.left fi fv fc
                              (Tree.node j w cc a (Tree.node k x ck p q)) :: rest)).vals := by
                          simp only [vals_plug, Tree.vals, ctxVals,
                            ← Multiset.singleton_add, add_zero, zero_add]
                          abel
                        rw [ihStep _ _ _ _ (by rw [hsame]; exact hmem) h, hsame]
                      · rw [if_neg hck] at h
                        by_cases ha : a = Tree.nil
                        · rw [if_pos ha] at h
                          simp at h
                        · rw [if_neg ha] at h
                          by_cases hac : a.colOf = Color.red
                          · rw [if_pos hac] at h
                            have hsame : (plug (Tree.node i v Color.red l r)
                                (Frame.mk Dir.left fi fv Color.black (a.setColor Color.black) ::
                                  Frame.mk Dir.left j w Color.red (Tree.node k x ck p q) :: rest)).vals =
                                (plug (Tree.node i v c l r) (Frame.mk Dir.left fi fv fc
                                  (Tree.node j w cc a (Tree.node k x ck p q)) :: rest)).vals := by
                              simp only [vals_plug, Tree.vals, vals_setColor, ctxVals,
                                ← Multiset.singleton_add, add_zero, zero_add]
                              abel
                            rw [ihStep _ _ _ _ (by rw [hsame]; exact hmem) h, hsame]
                          · rw [if_neg hac] at h
                            exact ihStep _ _ _ _ hmem h
                | right =>
                  cases fs with
                  | nil => simp at h
                  | node j w cc a b =>
                    cases a with
                    | nil => simp at h
                    | node k x ck p q =>
                      dsimp only at h
                      by_cases hck : ck = Color.red
                      · rw [if_pos hck] at h
                        have hsame : (plug (Tree.node i v Color.red l r)
                            (Frame.mk Dir.right fi fv Color.black (Tree.node j w cc q b) ::
                              Frame.mk Dir.right k x ck p :: rest)).vals =
                            (plug (Tree.node i v c l r) (Frame.mk Dir.right fi fv fc
                              (Tree.node j w cc (Tree.node k x ck p q) b) :: rest)).vals := by
                          simp only [vals_plug, Tree.vals, ctxVals,
                            ← Multiset.singleton_add, add_zero, zero_add]
                          abel
                        rw [ihStep _ _ _ _ (by rw [hsame]; exact hmem) h, hsame]
                      · rw [if_neg hck] at h
                        by_cases hbn : b = Tree.nil
                        · rw [if_pos hbn] at h
                          simp at h
                        · rw [if_neg hbn] at h
                          by_cases hbc : b.colOf = Color.red
                          · rw [if_pos hbc] at h
                            have hsame : (plug (Tree.node i v Color.red l r)
                                (Frame.mk Dir.right fi fv Color.black (b.setColor Color.black) ::
                                  Frame.mk Dir.right j w Color.red (Tree.node k x ck p q) :: rest)).vals =
                                (plug (Tree.node i v c l r) (Frame.mk Dir.right fi fv fc
                                  (Tree.node j w cc (Tree.node k x ck p q) b) :: rest)).vals := by
                              simp only [vals_plug, Tree.vals, vals_setColor, ctxVals,
                                ← Multiset.singleton_add, add_zero, zero_add]
                              abel
                            rw [ihStep _ _ _ _ (by rw [hsame]; exact hmem) h, hsame]
                          · rw [if_neg hbc] at h
                            exact ihStep _ _ _ _ hmem h
        · rw [if_neg hb1] at h
          by_cases hb2 : (Tree.node i v c l r).hasColorChild Color.red = true
          · rw [if_pos hb2] at h
            by_cases hc : c = Color.black
            · rw [if_pos hc] at h
              cases ctx with
              | nil =>
                have hsame : (plug (Tree.node i v Color.black l r) ([] : List Frame)).vals =
                    (plug (Tree.node i v c l r) ([] : List Frame)).vals := by
                  simp [vals_plug, Tree.vals]
                rw [ihFin _ _ _ _ (by rw [hsame]; exact hmem) h, hsame]
              | cons f rest =>
                obtain ⟨fd, fi, fv, fc, fs⟩ := f
                cases fd with
                | left =>
                  cases fs with
                  | nil => simp at h
                  | node j w jc a b =>
                    dsimp only at h
                    have hsame : (plug (Tree.node i v Color.black l r)
                        (Frame.mk Dir.left fi fv Color.red a ::
                          Frame.mk Dir.left j w Color.black b :: rest)).vals =
                        (plug (Tree.node i v c l r)
                          (Frame.mk Dir.left fi fv fc (Tree.node j w jc a b) :: rest)).vals := by
                      simp only [vals_plug, Tree.vals, ctxVals,
                        ← Multiset.singleton_add, add_zero, zero_add]
                      abel
                    rw [ihFin _ _ _ _ (by rw [hsame]; exact hmem) h, hsame]
                | right =>
                  cases fs with
                  | nil => simp at h
                  | node j w jc a b =>
                    dsimp only at h
                    have hsame : (plug (Tree.node i v Color.black l r)
                        (Frame.mk Dir.right fi fv Color.red b ::
                          Frame.mk Dir.right j w Color.black a :: rest)).vals =
                        (plug (Tree.node i v c l r)
                          (Frame.mk Dir.right fi fv fc (Tree.node j w jc a b) :: rest)).vals := by
                      simp only [vals_plug, Tree.vals, ctxVals,
                        ← Multiset.singleton_add, add_zero, zero_add]
                      abel
                    rw [ihFin _ _ _ _ (by rw [hsame]; exact hmem) h, hsame]
            · rw [if_neg hc] at h
              exact ihFin _ _ _ _ hmem h
          · rw [if_neg hb2] at h
            exact ihFin _ _ _ _ hmem h
    · -- removeStep
      intro ctx t value t' hmem h
      cases t with
      | nil => simp [removeStep] at h
      | node i v c l r =>
        simp only [removeStep, Option.bind_eq_some] at h
        obtain ⟨whole, hwhole, z, hz, hfin⟩ := h
        have hZ : plug z.2 z.1 = whole := by
          have h2 := zipToId_plug whole [] i z hz
          simpa [plug] using h2
        have hW : whole.vals = (plug (Tree.node i v c l r) ctx).vals := by
          by_cases hlt : v < value
          · rw [if_pos hlt] at hwhole
            have hsame : (plug r (Frame.mk Dir.right i v c l :: ctx)).vals =
                (plug (Tree.node i v c l r) ctx).vals := by
              simp only [vals_plug, Tree.vals, ctxVals,
                ← Multiset.singleton_add, add_zero, zero_add]
              abel
            rw [ihGo _ _ _ _ (by rw [hsame]; exact hmem) hwhole, hsame]
          · rw [if_neg hlt] at hwhole
            have hsame : (plug l (Frame.mk Dir.left i v c r :: ctx)).vals =
                (plug (Tree.node i v c l r) ctx).vals := by
              simp only [vals_plug, Tree.vals, ctxVals,
                ← Multiset.singleton_add, add_zero, zero_add]
              abel
            rw [ihGo _ _ _ _ (by rw [hsame]; exact hmem) hwhole, hsame]
        have hfin2 := ihFin _ _ _ _ (by rw [hZ, hW]; exact hmem) hfin
        rw [hfin2]
        rw [show (plug z.2 z.1).vals = whole.vals from by rw [hZ]]
        exact hW
    · -- removeFinish
      intro ctx t value t' hmem h
      cases t with
      | nil => simp [removeFinish] at h
      | node i v c l r =>
        simp only [removeFinish] at h
        by_cases hv : v = value
        · subst hv
          exact absurd (val_mem_plug ctx i v c l r) hmem
        · rw [if_neg hv] at h
          by_cases hlt : v < value
          · rw [if_pos hlt] at h
            have hsame : (plug r (Frame.mk Dir.right i v c l :: ctx)).vals =
                (plug (Tree.node i v c l r) ctx).vals := by
              simp only [vals_plug, Tree.vals, ctxVals,
                ← Multiset.singleton_add, add_zero, zero_add]
              abel
            rw [ihGo _ _ _ _ (by rw [hsame]; exact hmem) h, hsame]
          · rw [if_neg hlt] at h
            have hsame : (plug l (Frame.mk Dir.left i v c r :: ctx)).vals =
                (plug (Tree.node i v c l r) ctx).vals := by
              simp only [vals_plug, Tree.vals, ctxVals,
                ← Multiset.singleton_add, add_zero, zero_add]
              abel
            rw [ihGo _ _ _ _ (by rw [hsame]; exact hmem) h, hsame]

/-- C6 amended: whenever the public `remove` of a value that is not stored
completes, the multiset of stored values is unchanged (node colors and
structure may change — see the counterexample — but no value is removed,
added, or duplicated). -/
theorem remove_absent_preserves_vals :
    ∀ (fuel : Nat) (t : Tree) (value : Int) (t' : Tree),
      value ∉ t.vals → removePub fuel t value = some t' → t'.vals = t.vals := by
  intro fuel t value t' hmem h
  cases t with
  | nil =>
    simp only [removePub, Option.some.injEq] at h
    rw [← h]
  | node i v c l r =>
    simp only [removePub, Option.map_eq_some'] at h
    obtain ⟨t1, h1, h2⟩ := h
    have hvals1 : t'.vals = t1.vals := by
      match t1, h2 with
      | Tree.nil, h2 => rw [← h2]
      | Tree.node i2 v2 c2 l2 r2, h2 =>
        rw [← h2]
        simp [Tree.vals]
    by_cases hb : (Tree.node i v c l r).hasColorChildren Color.black = true
    · rw [if_pos hb] at h1
      have hmem0 : value ∉ (plug (Tree.node i v Color.red l r) ([] : List Frame)).vals := by
        simpa [plug, Tree.vals] using hmem
      have := (remove_vals fuel).1 [] (Tree.node i v Color.red l r) value t1 hmem0 h1
      rw [hvals1, this]
      simp [plug, Tree.vals]
    · rw [if_neg hb] at h1
      have hmem0 : value ∉ (plug (Tree.node i v c l r) ([] : List Frame)).vals := by
        simpa [plug] using hmem
      have := (remove_vals fuel).1 [] (Tree.node i v c l r) value t1 hmem0 h1
      rw [hvals1, this]
      simp [plug]

/-- Witness for C6's amended theorem: removing the absent value 3 from the
all-black tree {0,1,2} completes and preserves the value multiset. -/
theorem remove_absent_preserves_vals_witness :
    (3 : Int) ∉ allBlackTri.vals ∧
      removePub 100 allBlackTri 3 = some allBlackTriAfter ∧
      allBlackTriAfter.vals = allBlackTri.vals :=
  ⟨by decide, by decide,
    remove_absent_preserves_vals 100 allBlackTri 3 allBlackTriAfter (by decide) (by decide)⟩

/-! ### C8 : deletion by successor substitution -/

/-- The zipper built by the `find_min` descent reassembles to the same
whole tree. -/
theorem zipToLeftmost_plug : ∀ (t : Tree) (ctx : List Frame),
    plug (zipToLeftmost ctx t).2 (zipToLeftmost ctx t).1 = plug t ctx := by
  intro t
  induction t with
  | nil => intro ctx; rfl
  | node i v c l r ihl ihr =>
    intro ctx
    cases l with
    | nil => rfl
    | node j w cc a b =>
      show plug (zipToLeftmost (Frame.mk Dir.left i v c r :: ctx)
          (Tree.node j w cc a b)).2
        (zipToLeftmost (Frame.mk Dir.left i v c r :: ctx)
          (Tree.node j w cc a b)).1 = _
      rw [ihl]
      rfl

/-- The node reached by the `find_min` descent has no left child. -/
theorem zipToLeftmost_focus : ∀ (t : Tree) (ctx : List Frame), t ≠ Tree.nil →
    (zipToLeftmost ctx t).2.leftOf = Tree.nil ∧ (zipToLeftmost ctx t).2 ≠ Tree.nil := by
  intro t
  induction t with
  | nil => intro ctx h; exact absurd rfl h
  | node i v c l r ihl ihr =>
    intro ctx _
    cases l with
    | nil =>
      refine ⟨rfl, ?_⟩
      show (Tree.node i v c Tree.nil r : Tree) ≠ Tree.nil
      simp
    | node j w cc a b => exact ihl _ (by simp)

/-- After writing `v` at the leftmost position, the `find_min` descent
reaches a node holding `v`. -/
theorem zipToLeftmost_setLeftmost_val : ∀ (r : Tree) (v : Int) (ctx : List Frame),
    r ≠ Tree.nil → (zipToLeftmost ctx (setLeftmostVal r v)).2.valOf = v := by
  intro r
  induction r with
  | nil => intro v ctx h; exact absurd rfl h
  | node i u c l rr ihl ihr =>
    intro v ctx _
    cases l with
    | nil => rfl
    | node j w cc a b =>
      show (zipToLeftmost ctx (Tree.node i u c
        (setLeftmostVal (Tree.node j w cc a b) v) rr)).2.valOf = v
      cases a with
      | nil =>
        show (zipToLeftmost (Frame.mk Dir.left i u c rr :: ctx)
          (Tree.node j v cc Tree.nil b)).2.valOf = v
        rfl
      | node ja jv jc jl jr =>
        show (zipToLeftmost (Frame.mk Dir.left i u c rr :: ctx)
          (Tree.node j w cc (setLeftmostVal (Tree.node ja jv jc jl jr) v) b)).2.valOf = v
        have h2 := ihl v (Frame.mk Dir.left i u c rr :: ctx) (by simp)
        show (zipToLeftmost (Frame.mk Dir.left i u c rr :: ctx)
          (setLeftmostVal (Tree.node j w cc (Tree.node ja jv jc jl jr) b) v)).2.valOf = v
        exact h2

/-- The swap of `removeNode` uses the value of `find_min(node->right)`. -/
theorem leftmostVal_eq_findMin : ∀ t : Tree, leftmostVal t = (findMinNode t).valOf := by
  intro t
  induction t with
  | nil => rfl
  | node i v c l r ihl ihr =>
    cases l with
    | nil => rfl
    | node j w cc a b => exact ihl

/-- C8: when the removal reaches a node holding `v` that has two children
(`removeNode`, lines 245-259), the node is not physically removed.  Part 1:
for every such focus, `removeNode` performs exactly a value swap with the
node reached by the all-left descent of the right subtree — the whole tree
handed to the continued removal is the original one with the focus now
holding the successor value and the successor position now holding `v` —
and the removal recurses at the successor's original position, which holds
`v` and has no left child (hence at most one child).  Part 2: under the BST
order invariant the successor value used is the minimum of the right
subtree.  Part 3: concretely, building a tree from {0,1,2,3,4} by public
inserts and removing 2 yields the in-order traversal [0,1,3,4]. -/
theorem remove_two_children_successor :
    (∀ (fuel : Nat) (ctx : List Frame) (i : Nat) (v : Int) (c : Color) (l r : Tree),
      l ≠ Tree.nil → r ≠ Tree.nil →
      removeNodeGo (fuel + 1) ctx (Tree.node i v c l r) =
        removeGo fuel
          (zipToLeftmost (Frame.mk Dir.right i (leftmostVal r) c l :: ctx)
            (setLeftmostVal r v)).1
          (zipToLeftmost (Frame.mk Dir.right i (leftmostVal r) c l :: ctx)
            (setLeftmostVal r v)).2 v ∧
      (zipToLeftmost (Frame.mk Dir.right i (leftmostVal r) c l :: ctx)
        (setLeftmostVal r v)).2.leftOf = Tree.nil ∧
      (zipToLeftmost (Frame.mk Dir.right i (leftmostVal r) c l :: ctx)
        (setLeftmostVal r v)).2.valOf = v ∧
      plug (zipToLeftmost (Frame.mk Dir.right i (leftmostVal r) c l :: ctx)
          (setLeftmostVal r v)).2
        (zipToLeftmost (Frame.mk Dir.right i (leftmostVal r) c l :: ctx)
          (setLeftmostVal r v)).1 =
        plug (Tree.node i (leftmostVal r) c l (setLeftmostVal r v)) ctx) ∧
    (∀ r : Tree, r ≠ Tree.nil → strictlyIncreasing r.inorder = true →
      leftmostVal r ∈ r.inorder ∧ ∀ w ∈ r.inorder, leftmostVal r ≤ w) ∧
    inorderAfter (insList [0, 1, 2, 3, 4] ++ [Op.rem 2]) = some [0, 1, 3, 4] := by
  refine ⟨?_, ?_, by decide⟩
  · intro fuel ctx i v c l r hl hr
    refine ⟨?_, ?_, ?_, ?_⟩
    · cases r with
      | nil => exact absurd rfl hr
      | node jr wr cr ar br =>
        have hleaf : (Tree.node i v c l (Tree.node jr wr cr ar br)).isLeaf = false := by
          simp [Tree.isLeaf]
        simp only [removeNodeGo, hleaf, Bool.false_eq_true, if_false]
    · exact (zipToLeftmost_focus (setLeftmostVal r v) _ (by
        cases r with
        | nil => exact absurd rfl hr
        | node jr wr cr ar br => cases ar <;> simp [setLeftmostVal])).1
    · exact zipToLeftmost_setLeftmost_val r v _ hr
    · rw [zipToLeftmost_plug]
      rfl
  · intro r hr hsorted
    have hpw : List.Pairwise (fun a b => a < b) r.inorder :=
      List.chain'_iff_pairwise.mp ((strictlyIncreasing_iff_chain _).mp hsorted)
    have hhead := findMinNode_head r hr
    have hval : r.inorder.head? = some (leftmostVal r) := by
      rw [leftmostVal_eq_findMin]
      exact hhead
    exact ⟨mem_of_head?_eq hval, pairwise_head_le hpw hval⟩

/-- Witness for C8 at the two-child root of the tree {3,5,8} (value 5 at
the root) and at the sorted tree {0,1,2}. -/
theorem remove_two_children_successor_witness :
    ((Tree.node 2 3 Color.red Tree.nil Tree.nil : Tree) ≠ Tree.nil) ∧
      ((Tree.node 3 8 Color.red Tree.nil Tree.nil : Tree) ≠ Tree.nil) ∧
      (removeNodeGo 21 [] (Tree.node 1 5 Color.black
          (Tree.node 2 3 Color.red Tree.nil Tree.nil)
          (Tree.node 3 8 Color.red Tree.nil Tree.nil)) =
        removeGo 20
          (zipToLeftmost [Frame.mk Dir.right 1
            (leftmostVal (Tree.node 3 8 Color.red Tree.nil Tree.nil)) Color.black
            (Tree.node 2 3 Color.red Tree.nil Tree.nil)]
            (setLeftmostVal (Tree.node 3 8 Color.red Tree.nil Tree.nil) 5)).1
          (zipToLeftmost [Frame.mk Dir.right 1
            (leftmostVal (Tree.node 3 8 Color.red Tree.nil Tree.nil)) Color.black
            (Tree.node 2 3 Color.red Tree.nil Tree.nil)]
            (setLeftmostVal (Tree.node 3 8 Color.red Tree.nil Tree.nil) 5)).2 5 ∧
        (zipToLeftmost [Frame.mk Dir.right 1
          (leftmostVal (Tree.node 3 8 Color.red Tree.nil Tree.nil)) Color.black
          (Tree.node 2 3 Color.red Tree.nil Tree.nil)]
          (setLeftmostVal (Tree.node 3 8 Color.red Tree.nil Tree.nil) 5)).2.leftOf = Tree.nil ∧
        (zipToLeftmost [Frame.mk Dir.right 1
          (leftmostVal (Tree.node 3 8 Color.red Tree.nil Tree.nil)) Color.black
          (Tree.node 2 3 Color.red Tree.nil Tree.nil)]
          (setLeftmostVal (Tree.node 3 8 Color.red Tree.nil Tree.nil) 5)).2.valOf = 5 ∧
        plug (zipToLeftmost [Frame.mk Dir.right 1
            (leftmostVal (Tree.node 3 8 Color.red Tree.nil Tree.nil)) Color.black
            (Tree.node 2 3 Color.red Tree.nil Tree.nil)]
            (setLeftmostVal (Tree.node 3 8 Color.red Tree.nil Tree.nil) 5)).2
          (zipToLeftmost [Frame.mk Dir.right 1
            (leftmostVal (Tree.node 3 8 Color.red Tree.nil Tree.nil)) Color.black
            (Tree.node 2 3 Color.red Tree.nil Tree.nil)]
            (setLeftmostVal (Tree.node 3 8 Color.red Tree.nil Tree.nil) 5)).1 =
          plug (Tree.node 1 (leftmostVal (Tree.node 3 8 Color.red Tree.nil Tree.nil))
            Color.black (Tree.node 2 3 Color.red Tree.nil Tree.nil)
            (setLeftmostVal (Tree.node 3 8 Color.red Tree.nil Tree.nil) 5)) []) ∧
      (triTree ≠ Tree.nil ∧ strictlyIncreasing triTree.inorder = true) ∧
      (leftmostVal triTree ∈ triTree.inorder ∧
        ∀ w ∈ triTree.inorder, leftmostVal triTree ≤ w) :=
  ⟨by decide, by decide,
    remove_two_children_successor.1 20 [] 1 5 Color.black
      (Tree.node 2 3 Color.red Tree.nil Tree.nil)
      (Tree.node 3 8 Color.red Tree.nil Tree.nil) (by decide) (by decide),
    ⟨by decide, by decide⟩,
    remove_two_children_successor.2.1 triTree (by decide) (by decide)⟩

/-! ### C10 : deep copy -/

/-- The structural effect of `copy` (lines 218-230) on values, colors and
shape; fresh node identities are allocated in the C++ allocation order
(`new Node(root->value, root->color)` first, then the left subtree, then
the right subtree).  The function reads but never modifies its input. -/
def copyT : Tree → Nat → Tree × Nat
  | Tree.nil, n => (Tree.nil, n)
  | Tree.node _ v c l r, n =>
    let pl := copyT l (n + 1)
    let pr := copyT r pl.2
    (Tree.node n v c pl.1 pr.1, pr.2)

/-- Forget node identities: the part of a tree the copy must reproduce
(shape, values, colors). -/
def strip : Tree → Tree
  | Tree.nil => Tree.nil
  | Tree.node _ v c l r => Tree.node 0 v c (strip l) (strip r)

/-- The address of the root node, `nullptr` for an empty subtree. -/
def rootId : Tree → Option Nat
  | Tree.nil => none
  | Tree.node i _ _ _ _ => some i

/-- One heap record of a copied node, as the C++ `Node` stores it:
value, color, child addresses and the parent back-reference. -/
structure NodeRec where
  id : Nat
  value : Int
  color : Color
  left : Option Nat
  right : Option Nat
  parent : Option Nat
deriving DecidableEq, Repr

/-- `if (node->left) node->left->parent = node;` (lines 224-228): update
the parent field of the record at the given address, when non-null. -/
def setParentRec (recs : List NodeRec) (target : Option Nat) (p : Nat) : List NodeRec :=
  match target with
  | none => recs
  | some a => recs.map fun rec =>
      if rec.id = a then NodeRec.mk rec.id rec.value rec.color rec.left rec.right (some p)
      else rec

/-- `copy` (lines 218-230) at the pointer level: the records of the newly
allocated nodes (in allocation order), the returned root address, and the
next free address.  `new Node(value, color)` leaves the parent null
(line 70); the parent of each copied child root is assigned after the
recursive call. -/
def copyRec : Tree → Nat → List NodeRec × Option Nat × Nat
  | Tree.nil, n => ([], none, n)
  | Tree.node _ v c l r, n =>
    let pl := copyRec l (n + 1)
    let recsL := setParentRec pl.1 pl.2.1 n
    let pr := copyRec r pl.2.2
    let recsR := setParentRec pr.1 pr.2.1 n
    (NodeRec.mk n v c pl.2.1 pr.2.1 none :: (recsL ++ recsR), some n, pr.2.2)

/-- Records of a pointer graph whose parent back-references all correctly
point at the enclosing node (the given argument for the root).  Used as the
specification that `copyRec` must meet. -/
def treeRecs : Tree → Option Nat → List NodeRec
  | Tree.nil, _ => []
  | Tree.node i v c l r, par =>
    NodeRec.mk i v c (rootId l) (rootId r) par ::
      (treeRecs l (some i) ++ treeRecs r (some i))

theorem copyT_counter : ∀ (t : Tree) (n : Nat), (copyT t n).2 = n + t.size := by
  intro t
  induction t with
  | nil => intro n; simp [copyT, Tree.size]
  | node i v c l r ihl ihr =>
    intro n
    show (copyT r (copyT l (n + 1)).2).2 = n + (l.size + r.size + 1)
    rw [ihr, ihl]
    omega

theorem copyT_ids_bounds : ∀ (t : Tree) (n : Nat) (j : Nat),
    j ∈ (copyT t n).1.ids → n ≤ j ∧ j < n + t.size := by
  intro t
  induction t with
  | nil => intro n j h; simp [copyT, Tree.ids] at h
  | node i v c l r ihl ihr =>
    intro n j h
    have hshape : (copyT (Tree.node i v c l r) n).1 =
        Tree.node n v c (copyT l (n + 1)).1 (copyT r (copyT l (n + 1)).2).1 := rfl
    rw [hshape] at h
    simp only [Tree.ids, Multiset.mem_cons, Multiset.mem_add] at h
    rcases h with h | h | h
    · subst h
      simp only [Tree.size]
      omega
    · have := ihl (n + 1) j h
      simp only [Tree.size]
      omega
    · have := ihr ((copyT l (n + 1)).2) j h
      rw [copyT_counter] at this
      simp only [Tree.size]
      omega

/-- C10 part: the copy reproduces shape, values and colors exactly. -/
theorem strip_copyT : ∀ (t : Tree) (n : Nat), strip (copyT t n).1 = strip t := by
  intro t
  induction t with
  | nil => intro n; rfl
  | node i v c l r ihl ihr =>
    intro n
    show strip (Tree.node n v c (copyT l (n + 1)).1 (copyT r (copyT l (n + 1)).2).1) =
      strip (Tree.node i v c l r)
    simp only [strip]
    rw [ihl, ihr]

theorem map_id_of_eq {α : Type} (f : α → α) : ∀ (l : List α),
    (∀ x ∈ l, f x = x) → l.map f = l := by
  intro l
  induction l with
  | nil => intro _; rfl
  | cons x rest ih =>
    intro h
    simp only [List.map_cons]
    rw [h x (List.mem_cons_self _ _), ih (fun y hy => h y (List.mem_cons_of_mem _ hy))]

theorem treeRecs_mem_ids : ∀ (u : Tree) (par : Option Nat) (rec : NodeRec),
    rec ∈ treeRecs u par → rec.id ∈ u.ids := by
  intro u
  induction u with
  | nil => intro par rec h; simp [treeRecs] at h
  | node i v c l r ihl ihr =>
    intro par rec h
    simp only [treeRecs, List.mem_cons, List.mem_append] at h
    simp only [Tree.ids, Multiset.mem_cons, Multiset.mem_add]
    rcases h with h | h | h
    · left; rw [h]
    · right; left; exact ihl _ _ h
    · right; right; exact ihr _ _ h

/-- Updating the parent of the root record rewrites exactly the head of
`treeRecs`, provided no other record shares the root's address. -/
theorem setParentRec_treeRecs : ∀ (u : Tree) (p : Nat),
    (∀ rec ∈ treeRecs u none, rec ∈ (treeRecs u none).tail → rec.id ≠ u.idOf) →
    setParentRec (treeRecs u none) (rootId u) p = treeRecs u (some p) := by
  intro u p h
  cases u with
  | nil => rfl
  | node i v c l r =>
    show setParentRec (NodeRec.mk i v c (rootId l) (rootId r) none ::
      (treeRecs l (some i) ++ treeRecs r (some i))) (some i) p = _
    simp only [setParentRec, List.map_cons, if_pos rfl]
    have htail : ((treeRecs l (some i) ++ treeRecs r (some i)).map fun rec =>
        if rec.id = i then NodeRec.mk rec.id rec.value rec.color rec.left rec.right (some p)
        else rec) = treeRecs l (some i) ++ treeRecs r (some i) := by
      apply map_id_of_eq
      intro x hx
      have hne : x.id ≠ i := by
        apply h x
        · exact List.mem_cons_of_mem _ hx
        · exact hx
      rw [if_neg hne]
    rw [htail]
    rfl

/-- C10 main consistency: the pointer-level `copy` produces exactly the
records of the structural copy with every parent back-reference pointing
at the enclosing node (and the root's parent left null). -/
theorem copyRec_correct : ∀ (t : Tree) (n : Nat),
    (copyRec t n).1 = treeRecs (copyT t n).1 none ∧
      (copyRec t n).2.1 = rootId (copyT t n).1 ∧
      (copyRec t n).2.2 = (copyT t n).2 := by
  intro t
  induction t with
  | nil => intro n; exact ⟨rfl, rfl, rfl⟩
  | node i v c l r ihl ihr =>
    intro n
    obtain ⟨hl1, hl2, hl3⟩ := ihl (n + 1)
    obtain ⟨hr1, hr2, hr3⟩ := ihr ((copyT l (n + 1)).2)
    have hcopyrec : copyRec (Tree.node i v c l r) n =
        (NodeRec.mk n v c (copyRec l (n + 1)).2.1 (copyRec r (copyRec l (n + 1)).2.2).2.1 none ::
          (setParentRec (copyRec l (n + 1)).1 (copyRec l (n + 1)).2.1 n ++
            setParentRec (copyRec r (copyRec l (n + 1)).2.2).1
              (copyRec r (copyRec l (n + 1)).2.2).2.1 n),
          some n, (copyRec r (copyRec l (n + 1)).2.2).2.2) := rfl
    have hcopyt : (copyT (Tree.node i v c l r) n).1 =
        Tree.node n v c (copyT l (n + 1)).1 (copyT r (copyT l (n + 1)).2).1 := rfl
    -- the two setParentRec calls rewrite exactly the head of each sub-record list
    have hLrw : setParentRec (treeRecs (copyT l (n + 1)).1 none)
        (rootId (copyT l (n + 1)).1) n = treeRecs (copyT l (n + 1)).1 (some n) := by
      apply setParentRec_treeRecs
      intro rec _ htail
      cases hlc : l with
      | nil =>
        rw [hlc] at htail
        simp [copyT, treeRecs] at htail
      | node li lv lcc la lb =>
        rw [hlc] at htail
        have hshape : (copyT (Tree.node li lv lcc la lb) (n + 1)).1 =
            Tree.node (n + 1) lv lcc (copyT la (n + 2)).1
              (copyT lb (copyT la (n + 2)).2).1 := rfl
        rw [hshape] at htail ⊢
        simp only [treeRecs, List.tail_cons, List.mem_append] at htail
        have hid : rec.id ∈ (copyT la (n + 2)).1.ids ∨
            rec.id ∈ (copyT lb (copyT la (n + 2)).2).1.ids := by
          rcases htail with h | h
          · left; exact treeRecs_mem_ids _ _ _ h
          · right; exact treeRecs_mem_ids _ _ _ h
        have hgt : n + 2 ≤ rec.id := by
          rcases hid with h | h
          · exact (copyT_ids_bounds la (n + 2) rec.id h).1
          · have := (copyT_ids_bounds lb ((copyT la (n + 2)).2) rec.id h).1
            rw [copyT_counter] at this
            omega
        simp only [Tree.idOf]
        omega
    have hRrw : setParentRec (treeRecs (copyT r (copyT l (n + 1)).2).1 none)
        (rootId (copyT r (copyT l (n + 1)).2).1) n =
        treeRecs (copyT r (copyT l (n + 1)).2).1 (some n) := by
      apply setParentRec_treeRecs
      intro rec _ htail
      cases hrc : r with
      | nil =>
        rw [hrc] at htail
        simp [copyT, treeRecs] at htail
      | node ri rv rcc ra rb =>
        rw [hrc] at htail
        set m := (copyT l (n + 1)).2 with hm
        have hshape : (copyT (Tree.node ri rv rcc ra rb) m).1 =
            Tree.node m rv rcc (copyT ra (m + 1)).1
              (copyT rb (copyT ra (m + 1)).2).1 := rfl
        rw [hshape] at htail ⊢
        simp only [treeRecs, List.tail_cons, List.mem_append] at htail
        have hid : rec.id ∈ (copyT ra (m + 1)).1.ids ∨
            rec.id ∈ (copyT rb (copyT ra (m + 1)).2).1.ids := by
          rcases htail with h | h
          · left; exact treeRecs_mem_ids _ _ _ h
          · right; exact treeRecs_mem_ids _ _ _ h
        have hgt : m + 1 ≤ rec.id := by
          rcases hid with h | h
          · exact (copyT_ids_bounds ra (m + 1) rec.id h).1
          · have := (copyT_ids_bounds rb ((copyT ra (m + 1)).2) rec.id h).1
            rw [copyT_counter] at this
            omega
        simp only [Tree.idOf]
        omega
    refine ⟨?_, ?_, ?_⟩
    · rw [hcopyrec]
      show _ = treeRecs (copyT (Tree.node i v c l r) n).1 none
      rw [hcopyt]
      simp only [treeRecs]
      rw [hl1, hl2, hl3, hr1, hr2]
      rw [hLrw, hRrw]
    · rw [hcopyrec, hcopyt]
      rfl
    · rw [hcopyrec]
      show (copyRec r (copyRec l (n + 1)).2.2).2.2 = (copyT (Tree.node i v c l r) n).2
      rw [hl3, hr3]
      rfl

/-- C10: the copy construction / copy assignment path (`copy`, lines
218-230, used by the copy constructor at line 448 and `operator=` at lines
461-468) produces a deep copy: (1) the copied tree has exactly the same
shape, values at corresponding positions, and node colors; (2) the source
tree is an untouched input of the pure copy function; when every existing
node address is below the allocator counter, the copy shares no node with
the source; and (3) at the pointer level the copy's records carry exactly
the parent back-references derived from the copied structure (each child's
parent field names its enclosing node; the new root's parent is null). -/
theorem copy_deep_correct :
    (∀ (t : Tree) (n : Nat), strip (copyT t n).1 = strip t) ∧
    (∀ (t : Tree) (n : Nat), (∀ j ∈ t.ids, j < n) →
      ∀ j ∈ (copyT t n).1.ids, j ∉ t.ids) ∧
    (∀ (t : Tree) (n : Nat),
      (copyRec t n).1 = treeRecs (copyT t n).1 none ∧
        (copyRec t n).2.1 = rootId (copyT t n).1 ∧
        (copyRec t n).2.2 = (copyT t n).2) := by
  refine ⟨strip_copyT, ?_, copyRec_correct⟩
  intro t n hlt j hj hmem
  have h1 := (copyT_ids_bounds t n j hj).1
  have h2 := hlt j hmem
  omega

/-- Witness for C10 at the concrete tree {1,0,2} with allocator counter 10. -/
theorem copy_deep_correct_witness :
    strip (copyT triTree 10).1 = strip triTree ∧
      ((∀ j ∈ triTree.ids, j < 10) ∧ ∀ j ∈ (copyT triTree 10).1.ids, j ∉ triTree.ids) ∧
      (copyRec triTree 10).1 = treeRecs (copyT triTree 10).1 none :=
  ⟨copy_deep_correct.1 triTree 10,
    ⟨by decide, copy_deep_correct.2.1 triTree 10 (by decide)⟩,
    (copy_deep_correct.2.2 triTree 10).1⟩

/-- Witness for C7 at a concrete rotation: rotating left at the root of the
tree {0,1,2} rooted at 1. -/
theorem rotations_preserve_witness :
    rotateLeftAt triTree [] = some (Tree.node 3 2 Color.red
      (Tree.node 1 1 Color.black (Tree.node 2 0 Color.red Tree.nil Tree.nil) Tree.nil)
      Tree.nil, 3) ∧
    (Tree.node 3 2 Color.red
      (Tree.node 1 1 Color.black (Tree.node 2 0 Color.red Tree.nil Tree.nil) Tree.nil)
      Tree.nil).inorder = triTree.inorder := by
  have h := (rotations_preserve.1 triTree []
    (Tree.node 3 2 Color.red
      (Tree.node 1 1 Color.black (Tree.node 2 0 Color.red Tree.nil Tree.nil) Tree.nil)
      Tree.nil) 3 (by decide))
  exact ⟨by decide, h.1⟩

end RBT
